import Mathlib

/-!
Verification of the Patricia Merkle Trie engine (src/lib/trie.js together
with the bundled src/lib/errors.js).

The trie engine and the MissingNodeError class are embedded faithfully from
the source.  The repository files common.js, nodes.js and hasher.js are not
part of src/, so the nibble utilities, the node algebra and the Hasher are
modelled from the specification (their doc comments say so explicitly).
Byte strings are lists of naturals; the asynchronous store is a partial map;
fallible operations return an Except value.  The unbounded recursion that
JavaScript performs through store-resolved Hash nodes is bounded by an
explicit fuel parameter that is consumed only when a Hash node is resolved,
so every run on a Hash-free tree is independent of the fuel.
-/

namespace Urkel

/-- Modelled from the spec: external hash collaborator (spec section 6), with
a digest size in bytes and a digest function over byte strings. -/
structure HashFn where
  size : Nat
  digest : List Nat → List Nat

/-- Modelled from the spec: node flags of nodes.js (spec section 3): a cached
digest, the cache generation, and the dirty bit. -/
structure NodeFlags where
  hash : Option (List Nat)
  gen : Nat
  dirty : Bool
deriving DecidableEq, Repr

/-- Modelled from the spec: the node algebra of nodes.js (spec section 3).
Null is the empty subtree, Hash a digest placeholder, Short a
path-compression node, Full a 17-slot branch (the children list has length
17 in every well-formed node), Value an opaque leaf payload. -/
inductive Node where
  | nil : Node
  | hashn (data : List Nat) : Node
  | short (key : List Nat) (value : Node) (flags : NodeFlags) : Node
  | full (children : List Node) (flags : NodeFlags) : Node
  | valuen (data : List Nat) : Node

namespace Node

/-- Modelled from the spec: the isNull predicate of nodes.js. -/
def isNull : Node → Bool
  | .nil => true
  | _ => false

/-- Modelled from the spec: the isShort predicate of nodes.js. -/
def isShort : Node → Bool
  | .short _ _ _ => true
  | _ => false

/-- Modelled from the spec: the isFull predicate of nodes.js. -/
def isFull : Node → Bool
  | .full _ _ => true
  | _ => false

/-- Modelled from the spec: the isValue predicate of nodes.js. -/
def isValue : Node → Bool
  | .valuen _ => true
  | _ => false

/-- Modelled from the spec: the isHash predicate of nodes.js. -/
def isHash : Node → Bool
  | .hashn _ => true
  | _ => false

/-- Modelled from the spec: the data field of HashNode and ValueNode in
nodes.js; the engine reads it only on those two variants. -/
def hashData : Node → List Nat
  | .hashn d => d
  | .valuen d => d
  | _ => []

end Node

/-- Modelled from the spec: toNibbles of common.js (spec sections 3 and 4.1):
two nibbles per byte, high nibble first, followed by the terminator
nibble 16 that marks leaf-bearing paths (scenario S2 shows the terminator at
the end of every stored key). -/
def toNibbles (bytes : List Nat) : List Nat :=
  (bytes.map (fun b => [b / 16, b % 16])).flatten ++ [16]

/-- Modelled from the spec: the byte-packing half of fromNibbles of
common.js: pairs of nibbles are packed high-first into bytes. -/
def packNibs : List Nat → List Nat
  | a :: b :: rest => (a * 16 + b) :: packNibs rest
  | _ => []

/-- Modelled from the spec: fromNibbles of common.js (spec section 4.1): a
trailing terminator nibble is dropped, then nibbles are packed into bytes. -/
def fromNibbles (nibs : List Nat) : List Nat :=
  if nibs.getLast? = some 16 then packNibs nibs.dropLast else packNibs nibs

/-- Length of the longest common prefix of two lists. -/
def commonLen : List Nat → List Nat → Nat
  | x :: xs, y :: ys => if x = y then commonLen xs ys + 1 else 0
  | _, _ => 0

/-- Modelled from the spec: prefixLen of common.js (spec section 4.1): the
length of the longest common prefix of the first list from the given offset
and the second list (automatically capped by both lengths). -/
def prefixLen (a b : List Nat) (off : Nat) : Nat :=
  commonLen (a.drop off) b

/-- Modelled from the spec: startsWith of common.js (spec section 4.1): true
iff the key from the given offset begins with the whole second list. -/
def startsWith (key pfx : List Nat) (off : Nat) : Bool :=
  pfx.isPrefixOf (key.drop off)

/-- Modelled from the spec: the store collaborator (spec section 6), an
asynchronous byte-keyed map; has is derived from get. -/
structure Store where
  get : List Nat → Option (List Nat)

/-- Store membership, the has method of the store collaborator. -/
def Store.has (s : Store) (k : List Nat) : Bool :=
  (s.get k).isSome

/-- Batches accumulate put writes in order (spec section 6). -/
abbrev Batch := List (List Nat × List Nat)

/-- JavaScript values that can sit in the fields of an options object passed
to the MissingNodeError constructor: undefined, null, a byte string
(a Buffer) or a number. -/
inductive JsVal where
  | undef : JsVal
  | nullv : JsVal
  | bytes (b : List Nat) : JsVal
  | num (n : Nat) : JsVal
deriving DecidableEq, Repr

/-- JavaScript disjunction on the values that reach it in errors.js: undefined
and null are falsy, Buffers and the numbers used there are truthy. -/
def jsOr (a b : JsVal) : JsVal :=
  match a with
  | .undef => b
  | .nullv => b
  | _ => a

/-- Option literal view of the object passed to the MissingNodeError
constructor.  Every field that the object literal omits is undefined.  The
size field models reading a size property from that object: the object
literals built at the trie.js call sites never carry one, so it defaults to
undefined. -/
structure ErrOptions where
  rootHash : JsVal := .undef
  nodeHash : JsVal := .undef
  key : JsVal := .undef
  pos : JsVal := .undef
  size : JsVal := .undef
deriving DecidableEq, Repr

/-- Completed MissingNodeError instances as built by errors.js. -/
structure MissingNode where
  rootHash : JsVal
  nodeHash : JsVal
  key : JsVal
  pos : Nat
deriving DecidableEq, Repr

/-- Errors an engine operation can surface: a thrown MissingNodeError, a
TypeError raised while evaluating a statement, a generic Error with a
message, an assertion failure, or fuel exhaustion of this embedding (the
JavaScript recursion is unbounded; fuel is consumed only at Hash
resolution). -/
inductive Err where
  | missingNode (e : MissingNode) : Err
  | typeError (msg : String) : Err
  | generic (msg : String) : Err
  | assertFail : Err
  | fuelOut : Err
deriving DecidableEq, Repr

/-- Message of the TypeError raised when errors.js evaluates
nodeHash.toString on an undefined nodeHash. -/
def undefinedToStringMsg : String :=
  "Cannot read property toString of undefined"

/-- JavaScript pos coercion in errors.js: options.pos with undefined
becoming 0 under the unsigned shift. -/
def jsToUint (v : JsVal) : Nat :=
  match v with
  | .num n => n % 4294967296
  | _ => 0

/-- Embeds the MissingNodeError constructor of errors.js.  Its first
positional parameter is named hash and the second, options, defaults to the
empty object; both call sites in trie.js pass the options object in the
first (hash) position, so options keeps its default.  The fields are
computed as options.rootHash or hash.size, options.nodeHash or hash.size,
fromNibbles of options.key when that key is truthy else null, and the
unsigned coercion of options.pos.  Building the message then evaluates
nodeHash.toString, which throws a TypeError when nodeHash is not a
Buffer. -/
def mkMissingNodeError (hash : ErrOptions) (options : ErrOptions := {}) :
    Except Err MissingNode :=
  let rootHash := jsOr options.rootHash hash.size
  let nodeHash := jsOr options.nodeHash hash.size
  let key :=
    match options.key with
    | .bytes k => JsVal.bytes (fromNibbles k)
    | _ => JsVal.nullv
  let pos := jsToUint options.pos
  match nodeHash with
  | .bytes _ =>
      .ok { rootHash := rootHash, nodeHash := nodeHash, key := key, pos := pos }
  | _ => .error (.typeError undefinedToStringMsg)

/-- Effect of the throw new MissingNodeError expression: when the constructor
itself throws, that inner error propagates instead. -/
def throwMissing (opts : ErrOptions) : Err :=
  match mkMissingNodeError opts with
  | .ok e => .missingNode e
  | .error err => err

/-- State of a Trie instance (src/lib/trie.js constructor). -/
structure Trie where
  hash : HashFn
  emptyRoot : List Nat
  db : Option Store
  originalRoot : List Nat
  root : Node
  cacheGen : Nat
  cacheLimit : Nat

/-- Embeds the Trie constructor: emptyRoot is modelled from the spec
(section 6: the empty root equals hash(encode(Null))) because common.js is
not in src/, with the codec passed in as the encode black box. -/
def Trie.new (hashF : HashFn) (encode : Node → List Nat) (db : Option Store)
    (limit : Nat) : Trie :=
  { hash := hashF
    emptyRoot := hashF.digest (encode .nil)
    db := db
    originalRoot := hashF.digest (encode .nil)
    root := .nil
    cacheGen := 0
    cacheLimit := limit }

/-- Embeds Trie.prototype.flags: fresh NodeFlags with the current cache
generation and the dirty bit set (nodes.js is modelled from the spec: a
fresh dirty node has no cached hash). -/
def Trie.flags (t : Trie) : NodeFlags :=
  { hash := none, gen := t.cacheGen, dirty := true }

/-- Embeds Trie.prototype.shortNode. -/
def Trie.shortNode (t : Trie) (key : List Nat) (value : Node) : Node :=
  .short key value t.flags

/-- Embeds Trie.prototype.fullNode: modelled from the spec, a FullNode starts
with 17 Null children (spec section 3: unused slots hold Null). -/
def Trie.fullNode (t : Trie) : Node :=
  .full (List.replicate 17 Node.nil) t.flags

/-- Mutation of a cloned node in _insert and _remove: flags.hash is cleared
and flags.dirty set, the generation is untouched. -/
def NodeFlags.dirtied (f : NodeFlags) : NodeFlags :=
  { hash := none, gen := f.gen, dirty := true }

/-- Embeds Trie.prototype.resolveHash: requires a store, fetches the digest,
fails by throwing a MissingNodeError built from (rootHash = originalRoot,
nodeHash = n.data, key, pos) when absent, and otherwise decodes the raw
bytes with the codec black box dec (decodeNode of nodes.js). -/
def Trie.resolveHash (t : Trie) (dec : List Nat → Node) (n : Node)
    (key : List Nat) (pos : Nat) : Except Err Node :=
  match t.db with
  | none => .error (.generic "Cannot resolve hash without database.")
  | some db =>
      match db.get n.hashData with
      | none =>
          .error (throwMissing
            { rootHash := .bytes t.originalRoot
              nodeHash := .bytes n.hashData
              key := .bytes key
              pos := .num pos })
      | some raw => .ok (dec raw)

/-- Embeds Trie.prototype.resolve: a Hash node is resolved through the store
at the extended key, any other node is returned unchanged. -/
def Trie.resolve (t : Trie) (dec : List Nat → Node) (n : Node)
    (key : List Nat) (index : Nat) : Except Err Node :=
  match n with
  | .hashn _ => t.resolveHash dec n (key ++ [index]) key.length
  | _ => .ok n

/-- Index scan of the FULLNODE case of _remove: walk slots from i with the
running index accumulator (-1 for none seen, a slot number for exactly one
seen) and break to -2 at a second non-Null slot. -/
def scanFrom (cs : List Node) (i : Nat) (index : Int) : Int :=
  if _h : i < 17 then
    if (cs.getD i Node.nil).isNull then scanFrom cs (i + 1) index
    else if index = -1 then scanFrom cs (i + 1) (i : Int)
    else -2
  else index
termination_by 17 - i

/-- The scan loop of the FULLNODE case of _remove over all 17 slots. -/
def scanIndex (cs : List Node) : Int :=
  scanFrom cs 0 (-1)

theorem one_le_sizeOf_natList (l : List Nat) : 1 ≤ sizeOf l := by
  cases l
  · simp
  · simp [List.cons.sizeOf_spec]
    omega

theorem one_le_sizeOf_node (n : Node) : 1 ≤ sizeOf n := by
  cases n <;> simp [Node.nil.sizeOf_spec, Node.hashn.sizeOf_spec, Node.short.sizeOf_spec,
    Node.full.sizeOf_spec, Node.valuen.sizeOf_spec] <;> omega

theorem sizeOf_getD_lt (cs : List Node) (f : NodeFlags) (i : Nat) :
    sizeOf (cs.getD i Node.nil) < sizeOf (Node.full cs f) := by
  by_cases h : i < cs.length
  · have hm : cs.getD i Node.nil ∈ cs := by
      rw [List.getD_eq_getElem cs Node.nil h]
      exact cs.getElem_mem h
    have h1 : sizeOf (cs.getD i Node.nil) < sizeOf cs := List.sizeOf_lt_of_mem hm
    have h2 : sizeOf (Node.full cs f) = 1 + sizeOf cs + sizeOf f := by
      simp [Node.full.sizeOf_spec]
    omega
  · rw [List.getD_eq_default cs Node.nil (Nat.le_of_not_lt h)]
    have h2 : sizeOf (Node.full cs f) = 1 + sizeOf cs + sizeOf f := by
      simp [Node.full.sizeOf_spec]
    have h3 : sizeOf Node.nil = 1 := rfl
    have h4 : 1 ≤ sizeOf cs := by
      cases cs
      · simp
      · simp [List.cons.sizeOf_spec]
        omega
    omega

/-- Embeds Trie.prototype._get.  The triple is (value or null, node to keep,
resolved flag).  Fuel is consumed only at the HASHNODE case. -/
def Trie.getWalk (t : Trie) (dec : List Nat → Node) :
    Nat → Node → List Nat → Nat → Except Err (Option (List Nat) × Node × Bool)
  | fuel, n, key, pos =>
    if key.length < pos then .error .assertFail else
    match n with
    | .nil => .ok (none, .nil, false)
    | .valuen d => .ok (some d, .valuen d, false)
    | .short nk nv _nf =>
        if startsWith key nk pos then
          match t.getWalk dec fuel nv key (pos + nk.length) with
          | .error e => .error e
          | .ok (val, nn, res) =>
              if res then .ok (val, .short nk nn _nf, true)
              else .ok (val, n, false)
        else .ok (none, n, false)
    | .full cs _nf =>
        match t.getWalk dec fuel (cs.getD (key.getD pos 17) Node.nil) key (pos + 1) with
        | .error e => .error e
        | .ok (val, nn, res) =>
            if res then .ok (val, .full (cs.set (key.getD pos 17) nn) _nf, true)
            else .ok (val, n, false)
    | .hashn _ =>
        match t.resolveHash dec n key pos with
        | .error e => .error e
        | .ok child =>
            match fuel with
            | 0 => .error .fuelOut
            | fuel' + 1 =>
                match t.getWalk dec fuel' child key pos with
                | .error e => .error e
                | .ok (val, nn, _) => .ok (val, nn, true)
  termination_by fuel n _ _ => (fuel, sizeOf n)
  decreasing_by
  · exact Prod.Lex.right _ (by simp [Node.short.sizeOf_spec]; omega)
  · exact Prod.Lex.right _ (sizeOf_getD_lt _ _ _)
  · exact Prod.Lex.left _ _ (Nat.lt_succ_self _)

/-- Embeds Trie.prototype._insert.  The pair is (changed, new subtree); the
value argument is the node being planted (a ValueNode at the top call). -/
def Trie.insertWalk (t : Trie) (dec : List Nat → Node) :
    Nat → Node → List Nat → Nat → Node → Except Err (Bool × Node)
  | fuel, n, key, pos, value =>
    if key.length < pos then .error .assertFail else
    if key.length - pos = 0 then
      match n with
      | .valuen d =>
          match value with
          | .valuen vd => .ok (!(d == vd), value)
          | _ => .error (.typeError "Cannot read data of the value argument")
      | _ => .ok (true, value)
    else
    match n with
    | .short nk nv _nf =>
        let ml := prefixLen key nk pos
        if ml = nk.length then
          match t.insertWalk dec fuel nv key (pos + ml) value with
          | .error e => .error e
          | .ok (d, nn) =>
              if d then .ok (true, t.shortNode nk nn) else .ok (false, n)
        else
          match t.insertWalk dec fuel .nil nk (ml + 1) nv with
          | .error e => .error e
          | .ok (_, n1) =>
              match t.insertWalk dec fuel .nil key (pos + ml + 1) value with
              | .error e => .error e
              | .ok (_, n2) =>
                  let cs2 := ((List.replicate 17 Node.nil).set (nk.getD ml 17) n1).set
                    (key.getD (pos + ml) 17) n2
                  if ml = 0 then .ok (true, .full cs2 t.flags)
                  else .ok (true, t.shortNode ((key.drop pos).take ml) (.full cs2 t.flags))
    | .full cs _nf =>
        match t.insertWalk dec fuel (cs.getD (key.getD pos 17) Node.nil) key (pos + 1) value with
        | .error e => .error e
        | .ok (d, nn) =>
            if d then .ok (true, .full (cs.set (key.getD pos 17) nn) _nf.dirtied)
            else .ok (false, n)
    | .nil => .ok (true, t.shortNode (key.drop pos) value)
    | .hashn _ =>
        match t.resolveHash dec n key pos with
        | .error e => .error e
        | .ok rn =>
            match fuel with
            | 0 => .error .fuelOut
            | fuel' + 1 =>
                match t.insertWalk dec fuel' rn key pos value with
                | .error e => .error e
                | .ok (d, nn) => if d then .ok (true, nn) else .ok (false, rn)
    | .valuen _ => .error (.generic "Invalid node type.")
  termination_by fuel n _ _ _ => (fuel, sizeOf n)
  decreasing_by
  · exact Prod.Lex.right _ (by simp [Node.short.sizeOf_spec]; omega)
  · exact Prod.Lex.right _ (by
      have h1 := one_le_sizeOf_natList nk
      have h2 := one_le_sizeOf_node nv
      simp [Node.short.sizeOf_spec, Node.nil.sizeOf_spec]
      omega)
  · exact Prod.Lex.right _ (by
      have h1 := one_le_sizeOf_natList nk
      have h2 := one_le_sizeOf_node nv
      simp [Node.short.sizeOf_spec, Node.nil.sizeOf_spec]
      omega)
  · exact Prod.Lex.right _ (sizeOf_getD_lt _ _ _)
  · exact Prod.Lex.left _ _ (Nat.lt_succ_self _)

/-- Embeds Trie.prototype._remove.  The pair is (found, new subtree). -/
def Trie.removeWalk (t : Trie) (dec : List Nat → Node) :
    Nat → Node → List Nat → Nat → Except Err (Bool × Node)
  | fuel, n, key, pos =>
    if key.length < pos then .error .assertFail else
    match n with
    | .short nk nv _nf =>
        let ml := prefixLen key nk pos
        if ml < nk.length then .ok (false, n)
        else if ml = key.length - pos then .ok (true, .nil)
        else
          match t.removeWalk dec fuel nv key (pos + nk.length) with
          | .error e => .error e
          | .ok (d, nn) =>
              if d then
                match nn with
                | .short nk2 nv2 _ => .ok (true, t.shortNode (nk ++ nk2) nv2)
                | _ => .ok (true, t.shortNode nk nn)
              else .ok (false, n)
    | .full cs _nf =>
        match t.removeWalk dec fuel (cs.getD (key.getD pos 17) Node.nil) key (pos + 1) with
        | .error e => .error e
        | .ok (d, nn) =>
            if d then
              let cs' := cs.set (key.getD pos 17) nn
              let idx := scanIndex cs'
              if 0 ≤ idx then
                if idx ≠ 16 then
                  match t.resolve dec (cs'.getD idx.toNat Node.nil) key idx.toNat with
                  | .error e => .error e
                  | .ok child =>
                      match child with
                      | .short ck cv _ =>
                          .ok (true, t.shortNode (idx.toNat :: ck) cv)
                      | _ => .ok (true, t.shortNode [idx.toNat] (cs'.getD idx.toNat Node.nil))
                else .ok (true, t.shortNode [16] (cs'.getD 16 Node.nil))
              else .ok (true, .full cs' _nf.dirtied)
            else .ok (false, n)
    | .valuen _ => .ok (true, .nil)
    | .nil => .ok (false, .nil)
    | .hashn _ =>
        match t.resolveHash dec n key pos with
        | .error e => .error e
        | .ok rn =>
            match fuel with
            | 0 => .error .fuelOut
            | fuel' + 1 =>
                match t.removeWalk dec fuel' rn key pos with
                | .error e => .error e
                | .ok (d, nn) => if d then .ok (true, nn) else .ok (false, rn)
  termination_by fuel n _ _ => (fuel, sizeOf n)
  decreasing_by
  · exact Prod.Lex.right _ (by simp [Node.short.sizeOf_spec]; omega)
  · exact Prod.Lex.right _ (sizeOf_getD_lt _ _ _)
  · exact Prod.Lex.left _ _ (Nat.lt_succ_self _)

/-- Embeds Trie.prototype.get: translate to nibbles, walk, and keep the
resolved tree when the walk materialized Hash nodes. -/
def Trie.getM (t : Trie) (dec : List Nat → Node) (fuel : Nat) (key : List Nat) :
    Except Err (Option (List Nat) × Trie) :=
  match t.getWalk dec fuel t.root (toNibbles key) 0 with
  | .error e => .error e
  | .ok (val, root, res) => .ok (val, if res then { t with root := root } else t)

/-- Embeds Trie.prototype.insert: translate to nibbles, walk with a fresh
ValueNode, and store the returned root. -/
def Trie.insertM (t : Trie) (dec : List Nat → Node) (fuel : Nat)
    (key value : List Nat) : Except Err Trie :=
  match t.insertWalk dec fuel t.root (toNibbles key) 0 (.valuen value) with
  | .error e => .error e
  | .ok (_, root) => .ok { t with root := root }

/-- Embeds Trie.prototype.remove: translate to nibbles, walk, and store the
returned root. -/
def Trie.removeM (t : Trie) (dec : List Nat → Node) (fuel : Nat)
    (key : List Nat) : Except Err Trie :=
  match t.removeWalk dec fuel t.root (toNibbles key) 0 with
  | .error e => .error e
  | .ok (_, root) => .ok { t with root := root }

/-- The reserved state key byte 0x73 of trie.js. -/
def STATE_KEY : List Nat := [0x73]

/-- Embeds Trie.prototype.open: a missing root is recovered from the state
key when a store is configured; a resulting root that is present and not the
empty root must have digest length, requires a store, must exist in the
store (else a MissingNodeError carrying the root is thrown, whose
construction raises a TypeError as modelled in mkMissingNodeError), and is
then installed as originalRoot with the in-memory root a Hash node. -/
def Trie.openM (t : Trie) (root? : Option (List Nat)) : Except Err Trie :=
  let r :=
    match root?, t.db with
    | none, some db => db.get STATE_KEY
    | r0, _ => r0
  match r with
  | none => .ok t
  | some root =>
      if root = t.emptyRoot then .ok t
      else if root.length ≠ t.hash.size then .error .assertFail
      else
        match t.db with
        | none => .error (.generic "Cannot use root without database.")
        | some db =>
            if db.has root then
              .ok { t with originalRoot := root, root := .hashn root }
            else
              .error (throwMissing { rootHash := .bytes root, nodeHash := .bytes root })

/-- Modelled from the spec: the Hasher collaborator of hasher.js (spec
section 4.4), abstract here because hasher.js is not in src/.  run is the
hashRoot entry with a batch, runNoBatch the entry with a null batch; both
return the digest node and the cached tree, run additionally the batch
after its writes. -/
structure HasherFn where
  run : HashFn → Nat → Nat → Node → Batch → Node × Node × Batch
  runNoBatch : HashFn → Nat → Nat → Node → Node × Node

/-- Batch put appends a write. -/
def batchPut (b : Batch) (k v : List Nat) : Batch :=
  b ++ [(k, v)]

/-- Embeds Trie.prototype.hashRoot called with a batch: a Null root is
hashed to the empty-root constant without invoking the Hasher, otherwise
a fresh Hasher is invoked with the current hash, cacheGen and cacheLimit. -/
def Trie.hashRootB (t : Trie) (H : HasherFn) (batch : Batch) : Node × Node × Batch :=
  if t.root.isNull then (.hashn t.emptyRoot, .nil, batch)
  else H.run t.hash t.cacheGen t.cacheLimit t.root batch

/-- Embeds Trie.prototype.hashRoot called with a null batch (the rootHash
path). -/
def Trie.hashRootN (t : Trie) (H : HasherFn) : Node × Node :=
  if t.root.isNull then (.hashn t.emptyRoot, .nil)
  else H.runNoBatch t.hash t.cacheGen t.cacheLimit t.root

/-- Embeds Trie.prototype.rootHash: hash without a batch, swap in the cached
tree, return the digest bytes. -/
def Trie.rootHashM (t : Trie) (H : HasherFn) : List Nat × Trie :=
  let r := t.hashRootN H
  (r.1.hashData, { t with root := r.2 })

/-- Embeds Trie.prototype.commit: hash with the batch, append the state-key
write, install the digest as originalRoot, swap in the cached tree, bump the
cache generation, return the digest bytes together with the new state and
the final batch. -/
def Trie.commitM (t : Trie) (H : HasherFn) (batch : Batch) : List Nat × Trie × Batch :=
  let r := t.hashRootB H batch
  (r.1.hashData,
    { t with originalRoot := r.1.hashData, root := r.2.1, cacheGen := t.cacheGen + 1 },
    batchPut r.2.2 STATE_KEY r.1.hashData)

/-!  Specification-side definitions used to state the map-semantics and
idempotence claims: a pure denotation of a store-free tree mirroring the
_get walk, a well-formedness invariant on the trees the engine builds from
byte keys, and a reference association-list model of the key-value map. -/

/-- Denotation of a Hash-free tree: the value reached by the _get walk on
the remaining nibble key. -/
def find : Node → List Nat → Option (List Nat)
  | .nil, _ => none
  | .valuen d, _ => some d
  | .hashn _, _ => none
  | .short nk nv _, ks => if nk.isPrefixOf ks then find nv (ks.drop nk.length) else none
  | .full cs _, ks =>
      match ks with
      | [] => none
      | i :: rest => find (cs.getD i Node.nil) rest
  termination_by n _ => sizeOf n
  decreasing_by
  · simp [Node.short.sizeOf_spec]
    omega
  · exact sizeOf_getD_lt _ _ _

/-- Well-formed nibble key of a stored suffix: nonempty, made of nibbles
below 16, terminated by the single nibble 16. -/
def goodNibsB : List Nat → Bool
  | [] => false
  | [x] => x == 16
  | x :: y :: rest => decide (x < 16) && goodNibsB (y :: rest)

mutual

/-- Well-formedness of the trees built by insert and remove from byte keys:
no Hash or bare Value node; a Short holding a Value carries a terminated
key, a Short holding a Full carries a nonempty terminator-free key; a Full
has exactly 17 children with only Null or a Value in slot 16 and only Null,
Short or Full in the nibble slots. -/
def wfB : Node → Bool
  | .nil => true
  | .valuen _ => false
  | .hashn _ => false
  | .short nk nv _ =>
      match nv with
      | .valuen _ => goodNibsB nk
      | .full cs2 f2 =>
          !nk.isEmpty && nk.all (fun x => decide (x < 16)) && wfB (.full cs2 f2)
      | .nil => false
      | .hashn _ => false
      | .short _ _ _ => false
  | .full cs _ => cs.length == 17 && wfKids cs 0

/-- Slot-wise well-formedness of a children list starting at slot i. -/
def wfKids : List Node → Nat → Bool
  | [], _ => true
  | c :: rest, i =>
      (if i == 16 then c.isNull || c.isValue else wfB c) && wfKids rest (i + 1)

end

/-- One user-level operation of the map interface. -/
inductive Op where
  | ins (key value : List Nat) : Op
  | del (key : List Nat) : Op

/-- Keys of an operation are byte strings (each entry below 256). -/
def opBytesB : Op → Bool
  | .ins k _ => k.all (fun b => decide (b < 256))
  | .del k => k.all (fun b => decide (b < 256))

/-- Applies one operation through the engine. -/
def Trie.applyOp (t : Trie) (dec : List Nat → Node) (fuel : Nat) : Op → Except Err Trie
  | .ins k v => t.insertM dec fuel k v
  | .del k => t.removeM dec fuel k

/-- Applies a sequence of operations through the engine, stopping at the
first error. -/
def applyOps (dec : List Nat → Node) (fuel : Nat) : Trie → List Op → Except Err Trie
  | t, [] => .ok t
  | t, op :: rest =>
      match t.applyOp dec fuel op with
      | .error e => .error e
      | .ok t2 => applyOps dec fuel t2 rest

/-- Reference model: the effect of one operation on an association list
(newest binding first; remove drops every binding of the key). -/
def modelApply (m : List (List Nat × List Nat)) : Op → List (List Nat × List Nat)
  | .ins k v => (k, v) :: m
  | .del k => m.filter (fun p => !(p.1 == k))

/-- Reference model of a whole operation sequence: the association list
whose lookup of k is the value of the last insert of k not followed by a
remove of k, and nothing when k was never inserted or last removed. -/
def modelOf (ops : List Op) : List (List Nat × List Nat) :=
  ops.foldl modelApply []

/-! Utility lemmas about good nibble keys, common prefixes and nibble
translation. -/

/-- Concrete hash collaborator used by closed witness evaluations. -/
def wHash : HashFn := ⟨1, fun _ => [0]⟩

/-- Concrete codec used by closed witness evaluations. -/
def wEncode : Node → List Nat := fun _ => []

/-- Concrete stored leaf (key byte 0x01, value byte 0x02) used by closed
witness evaluations. -/
def wLeaf : Node := .short [0, 1, 16] (.valuen [2]) ⟨none, 0, true⟩

/-- Concrete store holding one raw entry under digest 0x05, used by closed
witness evaluations. -/
def wStore : Store := ⟨fun kk => if kk = [5] then some [0] else none⟩

/-- Concrete decoder returning the stored leaf, used by closed witness
evaluations. -/
def wDec : List Nat → Node := fun _ => wLeaf

theorem good_single : goodNibsB [16] = true := rfl

theorem good_cons {x : Nat} {ks : List Nat} (h : goodNibsB (x :: ks) = true) :
    (x = 16 ∧ ks = []) ∨ (x < 16 ∧ goodNibsB ks = true) := by
  cases ks with
  | nil =>
      left
      constructor
      · simpa [goodNibsB] using h
      · rfl
  | cons y rest =>
      right
      simp only [goodNibsB, Bool.and_eq_true, decide_eq_true_eq] at h
      exact ⟨h.1, h.2⟩

theorem good_cons_of {x : Nat} {ks : List Nat} (hx : x < 16)
    (h : goodNibsB ks = true) : goodNibsB (x :: ks) = true := by
  cases ks with
  | nil => simp [goodNibsB] at h
  | cons y rest => simp [goodNibsB, hx, h]

theorem good_ne_nil {ks : List Nat} (h : goodNibsB ks = true) : ks ≠ [] := by
  intro hk
  subst hk
  simp [goodNibsB] at h

theorem good_iff {ks : List Nat} :
    goodNibsB ks = true ↔ ∃ body, ks = body ++ [16] ∧ ∀ x ∈ body, x < 16 := by
  induction ks with
  | nil =>
      simp only [goodNibsB]
      constructor
      · intro h
        cases h
      · rintro ⟨body, hb, _⟩
        exact absurd hb.symm (by simp)
  | cons x rest ih =>
      constructor
      · intro h
        rcases good_cons h with ⟨h16, hrest⟩ | ⟨hx, hrest⟩
        · subst h16
          subst hrest
          exact ⟨[], rfl, by simp⟩
        · obtain ⟨body, hb, hlt⟩ := ih.mp hrest
          refine ⟨x :: body, by simp [hb], ?_⟩
          intro y hy
          rcases List.mem_cons.mp hy with rfl | hy
          · exact hx
          · exact hlt y hy
      · rintro ⟨body, hb, hlt⟩
        cases body with
        | nil =>
            simp only [List.nil_append, List.cons.injEq] at hb
            rw [hb.1, hb.2]
            rfl
        | cons b bs =>
            simp only [List.cons_append, List.cons.injEq] at hb
            obtain ⟨hb1, hb2⟩ := hb
            subst hb1
            exact good_cons_of (hlt x (by simp))
              (ih.mpr ⟨bs, hb2, fun y hy => hlt y (by simp [hy])⟩)

theorem good_head16 {ks : List Nat} (h : goodNibsB (16 :: ks) = true) : ks = [] := by
  rcases good_cons h with ⟨_, h2⟩ | ⟨hlt, _⟩
  · exact h2
  · omega

theorem good_le16 {ks : List Nat} (h : goodNibsB ks = true) {x : Nat} (hx : x ∈ ks) :
    x ≤ 16 := by
  obtain ⟨body, rfl, hlt⟩ := good_iff.mp h
  rcases List.mem_append.mp hx with hb | hb
  · exact Nat.le_of_lt (Nat.lt_of_lt_of_le (hlt x hb) (by omega))
  · simp at hb
    omega

theorem good_prefix_eq {a b : List Nat} (ha : goodNibsB a = true)
    (hb : goodNibsB b = true) (hp : a <+: b) : a = b := by
  induction a generalizing b with
  | nil => exact absurd rfl (good_ne_nil ha)
  | cons x rest ih =>
      cases b with
      | nil =>
          have := List.prefix_nil.mp hp
          simp at this
      | cons y ys =>
          obtain ⟨hxy, hp2⟩ := List.cons_prefix_cons.mp hp
          subst hxy
          rcases good_cons ha with ⟨h16, hre⟩ | ⟨hx, hre⟩
          · subst h16
            subst hre
            rw [good_head16 hb]
          · have hys : goodNibsB ys = true := by
              rcases good_cons hb with ⟨h16, _⟩ | ⟨_, h⟩
              · omega
              · exact h
            rw [ih hre hys hp2]

theorem good_drop_chunk {ks p : List Nat} (h : goodNibsB ks = true)
    (hp : p <+: ks) (hlt : ∀ x ∈ p, x < 16) : goodNibsB (ks.drop p.length) = true := by
  induction p generalizing ks with
  | nil => simpa using h
  | cons x rest ih =>
      cases ks with
      | nil =>
          have := List.prefix_nil.mp hp
          simp at this
      | cons y ys =>
          obtain ⟨hxy, hp2⟩ := List.cons_prefix_cons.mp hp
          subst hxy
          have hx : x < 16 := hlt x (by simp)
          rcases good_cons h with ⟨h16, _⟩ | ⟨_, hgood⟩
          · omega
          · simpa using ih hgood hp2 (fun z hz => hlt z (by simp [hz]))

theorem good_append {p ks : List Nat} (hlt : ∀ x ∈ p, x < 16)
    (h : goodNibsB ks = true) : goodNibsB (p ++ ks) = true := by
  induction p with
  | nil => simpa using h
  | cons x rest ih =>
      simpa using good_cons_of (hlt x (by simp))
        (ih (fun y hy => hlt y (by simp [hy])))

theorem good_take_lt {ks : List Nat} (h : goodNibsB ks = true) {m : Nat}
    (hm : m < ks.length) : ∀ x ∈ ks.take m, x < 16 := by
  obtain ⟨body, rfl, hlt⟩ := good_iff.mp h
  intro x hx
  have hm2 : m ≤ body.length := by
    simp only [List.length_append, List.length_cons, List.length_nil] at hm
    omega
  rw [List.take_append_of_le_length hm2] at hx
  exact hlt x (List.mem_of_mem_take hx)

theorem commonLen_cons (x y : Nat) (xs ys : List Nat) :
    commonLen (x :: xs) (y :: ys) = if x = y then commonLen xs ys + 1 else 0 := rfl

theorem commonLen_le_left (a b : List Nat) : commonLen a b ≤ a.length := by
  induction a generalizing b with
  | nil => simp [commonLen]
  | cons x xs ih =>
      cases b with
      | nil => simp [commonLen]
      | cons y ys =>
          by_cases hxy : x = y
          · simp only [commonLen, if_pos hxy, List.length_cons]
            exact Nat.succ_le_succ (ih ys)
          · simp [commonLen, hxy]

theorem commonLen_le_right (a b : List Nat) : commonLen a b ≤ b.length := by
  induction a generalizing b with
  | nil => simp [commonLen]
  | cons x xs ih =>
      cases b with
      | nil => simp [commonLen]
      | cons y ys =>
          by_cases hxy : x = y
          · simp only [commonLen, if_pos hxy, List.length_cons]
            exact Nat.succ_le_succ (ih ys)
          · simp [commonLen, hxy]

theorem commonLen_eq_right_of_prefix {a b : List Nat} (h : b <+: a) :
    commonLen a b = b.length := by
  induction b generalizing a with
  | nil => cases a <;> simp [commonLen]
  | cons y ys ih =>
      obtain ⟨t, rfl⟩ := h
      rw [List.cons_append]
      have h2 : commonLen (ys ++ t) ys = ys.length := ih ⟨t, rfl⟩
      simp [commonLen, h2]

theorem prefix_of_commonLen_eq_right {a b : List Nat} (h : commonLen a b = b.length) :
    b <+: a := by
  induction b generalizing a with
  | nil => simp
  | cons y ys ih =>
      cases a with
      | nil => simp [commonLen] at h
      | cons x xs =>
          by_cases hxy : x = y
          · subst hxy
            rw [commonLen_cons, if_pos rfl, List.length_cons] at h
            exact List.cons_prefix_cons.mpr ⟨rfl, ih (by omega)⟩
          · rw [commonLen_cons, if_neg hxy, List.length_cons] at h
            omega

theorem take_commonLen_eq (a b : List Nat) :
    a.take (commonLen a b) = b.take (commonLen a b) := by
  induction a generalizing b with
  | nil => simp [commonLen]
  | cons x xs ih =>
      cases b with
      | nil => simp [commonLen]
      | cons y ys =>
          rw [commonLen_cons]
          by_cases hxy : x = y
          · subst hxy
            rw [if_pos rfl]
            simp only [List.take_succ_cons]
            rw [ih ys]
          · rw [if_neg hxy]
            simp

theorem take_commonLen_prefix_left (a b : List Nat) :
    a.take (commonLen a b) <+: a := List.take_prefix _ _

theorem commonLen_getD_ne {a b : List Nat} (ha : commonLen a b < a.length)
    (hb : commonLen a b < b.length) : a.getD (commonLen a b) 17 ≠ b.getD (commonLen a b) 17 := by
  induction a generalizing b with
  | nil => simp at ha
  | cons x xs ih =>
      cases b with
      | nil => simp at hb
      | cons y ys =>
          by_cases hxy : x = y
          · subst hxy
            rw [commonLen_cons, if_pos rfl] at ha hb ⊢
            have := ih (b := ys) (by simpa using ha) (by simpa using hb)
            simpa [List.getD] using this
          · rw [commonLen_cons, if_neg hxy]
            simpa [List.getD] using hxy

theorem prefix_getD {p a : List Nat} (h : p <+: a) {m : Nat} (hm : m < p.length)
    (d : Nat) : a.getD m d = p.getD m d := by
  obtain ⟨t, rfl⟩ := h
  exact List.getD_append _ _ _ _ hm

theorem append_prefix_iff {p q a : List Nat} :
    (p ++ q) <+: a ↔ p <+: a ∧ q <+: a.drop p.length := by
  constructor
  · rintro ⟨t, rfl⟩
    constructor
    · exact ⟨q ++ t, by simp⟩
    · rw [List.append_assoc, List.drop_left]
      exact ⟨t, rfl⟩
  · rintro ⟨hp, hq⟩
    obtain ⟨t, ht⟩ := hq
    have ha : a = p ++ a.drop p.length := by
      conv_lhs => rw [← List.take_append_drop p.length a]
      rw [← List.prefix_iff_eq_take.mp hp]
    exact ⟨t, by rw [ha, ← ht, List.append_assoc]⟩

theorem drop_eq_cons_getD {kn : List Nat} {pos : Nat} {i : Nat} {rest : List Nat}
    (h : kn.drop pos = i :: rest) : kn.getD pos 17 = i ∧ kn.drop (pos + 1) = rest := by
  constructor
  · rw [List.getD_eq_getElem?_getD]
    have h0 : (kn.drop pos)[0]? = kn[pos + 0]? := List.getElem?_drop _ _ _
    rw [h] at h0
    simp only [List.getElem?_cons_zero, Nat.add_zero] at h0
    rw [← h0]
    rfl
  · have h1 : kn.drop (pos + 1) = (kn.drop pos).drop 1 := by
      rw [List.drop_drop]
    rw [h1, h]
    rfl

theorem toNibbles_good {k : List Nat} (hk : ∀ b ∈ k, b < 256) :
    goodNibsB (toNibbles k) = true := by
  rw [good_iff]
  refine ⟨(k.map (fun b => [b / 16, b % 16])).flatten, rfl, ?_⟩
  intro x hx
  rw [List.mem_flatten] at hx
  obtain ⟨l, hl, hxl⟩ := hx
  rw [List.mem_map] at hl
  obtain ⟨b, hb, rfl⟩ := hl
  have hb256 := hk b hb
  simp only [List.mem_cons, List.not_mem_nil, or_false] at hxl
  rcases hxl with rfl | rfl
  · omega
  · exact Nat.mod_lt _ (by omega)

theorem toNibbles_ne_nil (k : List Nat) : toNibbles k ≠ [] := by
  simp [toNibbles]

theorem toNibbles_inj {k1 k2 : List Nat} (h : toNibbles k1 = toNibbles k2) :
    k1 = k2 := by
  unfold toNibbles at h
  have h2 := List.append_cancel_right h
  clear h
  induction k1 generalizing k2 with
  | nil =>
      cases k2 with
      | nil => rfl
      | cons b bs => simp at h2
  | cons a as ih =>
      cases k2 with
      | nil => simp at h2
      | cons b bs =>
          simp only [List.map_cons, List.flatten_cons, List.cons_append,
            List.cons.injEq] at h2
          obtain ⟨hdiv, hmod, hrest⟩ := h2
          have hab : a = b := by
            have ha := Nat.div_add_mod a 16
            have hb := Nat.div_add_mod b 16
            omega
          subst hab
          rw [ih hrest]

/-! Helpers about list set and getD, the slot scan, well-formedness and the
find denotation. -/

theorem getD_set_self {cs : List Node} {j : Nat} (h : j < cs.length) (x : Node) :
    (cs.set j x).getD j Node.nil = x := by
  rw [List.getD_eq_getElem?_getD, List.getElem?_set_self']
  simp [List.getElem?_eq_getElem h]

theorem getD_set_ne {cs : List Node} {j k : Nat} (h : j ≠ k) (x d : Node) :
    (cs.set j x).getD k d = cs.getD k d := by
  rw [List.getD_eq_getElem?_getD, List.getElem?_set_ne h, ← List.getD_eq_getElem?_getD]

theorem find_nil (ks : List Nat) : find .nil ks = none := by
  simp [find]

theorem find_hashn (d : List Nat) (ks : List Nat) : find (.hashn d) ks = none := by
  simp [find]

theorem find_valuen (d : List Nat) (ks : List Nat) : find (.valuen d) ks = some d := by
  simp [find]

theorem find_short (nk : List Nat) (nv : Node) (f : NodeFlags) (ks : List Nat) :
    find (.short nk nv f) ks =
      if nk.isPrefixOf ks then find nv (ks.drop nk.length) else none := by
  simp [find]

theorem find_full_nil (cs : List Node) (f : NodeFlags) : find (.full cs f) [] = none := by
  simp [find]

theorem find_full_cons (cs : List Node) (f : NodeFlags) (i : Nat) (rest : List Nat) :
    find (.full cs f) (i :: rest) = find (cs.getD i Node.nil) rest := by
  simp [find]

/-- Slot condition of a well-formed Full: slot 16 holds Null or a Value,
nibble slots hold well-formed nodes (in particular never a bare Value or a
Hash). -/
def slotOkB (idx : Nat) (c : Node) : Bool :=
  if idx = 16 then c.isNull || c.isValue else wfB c

theorem wfKids_iff (cs : List Node) (i : Nat) :
    wfKids cs i = true ↔
      ∀ j, j < cs.length → slotOkB (i + j) (cs.getD j Node.nil) = true := by
  induction cs generalizing i with
  | nil => simp [wfKids]
  | cons c rest ih =>
      rw [wfKids]
      simp only [Bool.and_eq_true]
      constructor
      · rintro ⟨h1, h2⟩
        intro j hj
        cases j with
        | zero =>
            simp only [List.getD_cons_zero, Nat.add_zero, slotOkB]
            by_cases hi : i = 16
            · subst hi
              simpa using h1
            · rw [if_neg hi]
              simpa [hi] using h1
        | succ j' =>
            have h2' := (ih (i + 1)).mp h2 j' (by simpa using hj)
            have heq : i + 1 + j' = i + (j' + 1) := by omega
            rw [heq] at h2'
            simpa [List.getD_cons_succ] using h2'
      · intro h
        constructor
        · have := h 0 (by simp)
          simp only [List.getD_cons_zero, Nat.add_zero, slotOkB] at this
          by_cases hi : i = 16
          · subst hi
            simpa using this
          · rw [if_neg hi] at this
            simpa [hi] using this
        · refine (ih (i + 1)).mpr ?_
          intro j hj
          have h2' := h (j + 1) (by simpa using hj)
          have heq : i + (j + 1) = i + 1 + j := by omega
          rw [heq] at h2'
          simpa [List.getD_cons_succ] using h2'

theorem wfFull_len {cs : List Node} {f : NodeFlags} (h : wfB (.full cs f) = true) :
    cs.length = 17 := by
  rw [wfB] at h
  simp only [Bool.and_eq_true, beq_iff_eq] at h
  exact h.1

theorem wfFull_kids {cs : List Node} {f : NodeFlags} (h : wfB (.full cs f) = true) :
    wfKids cs 0 = true := by
  rw [wfB] at h
  simp only [Bool.and_eq_true, beq_iff_eq] at h
  exact h.2

theorem wfFull_intro {cs : List Node} (f : NodeFlags) (hlen : cs.length = 17)
    (hk : wfKids cs 0 = true) : wfB (.full cs f) = true := by
  rw [wfB]
  simp [hlen, hk]

theorem wfFull_slot {cs : List Node} {f : NodeFlags} (h : wfB (.full cs f) = true)
    {j : Nat} (hj : j < 17) (hj16 : j ≠ 16) : wfB (cs.getD j Node.nil) = true := by
  have hlen := wfFull_len h
  have := (wfKids_iff cs 0).mp (wfFull_kids h) j (by omega)
  simpa [slotOkB, hj16] using this

theorem wfFull_slot16 {cs : List Node} {f : NodeFlags} (h : wfB (.full cs f) = true) :
    ((cs.getD 16 Node.nil).isNull || (cs.getD 16 Node.nil).isValue) = true := by
  have hlen := wfFull_len h
  have := (wfKids_iff cs 0).mp (wfFull_kids h) 16 (by omega)
  simpa [slotOkB] using this

theorem wfFull_of_slots {cs : List Node} (f : NodeFlags) (hlen : cs.length = 17)
    (hs : ∀ j, j < 17 → j ≠ 16 → wfB (cs.getD j Node.nil) = true)
    (h16 : ((cs.getD 16 Node.nil).isNull || (cs.getD 16 Node.nil).isValue) = true) :
    wfB (.full cs f) = true := by
  refine wfFull_intro f hlen ((wfKids_iff cs 0).mpr ?_)
  intro j hj
  rw [hlen] at hj
  by_cases hj16 : j = 16
  · subst hj16
    simpa [slotOkB] using h16
  · simpa [slotOkB, hj16] using hs j hj hj16

theorem wf_short_cases {nk : List Nat} {nv : Node} {f : NodeFlags}
    (h : wfB (.short nk nv f) = true) :
    (∃ d, nv = .valuen d ∧ goodNibsB nk = true) ∨
      (∃ cs f2, nv = .full cs f2 ∧ nk ≠ [] ∧ (∀ x ∈ nk, x < 16) ∧ wfB nv = true) := by
  cases nv with
  | valuen d =>
      refine Or.inl ⟨d, rfl, ?_⟩
      rw [wfB] at h
      exact h
  | full cs f2 =>
      rw [wfB] at h
      simp only [Bool.and_eq_true, List.all_eq_true, decide_eq_true_eq,
        Bool.not_eq_eq_eq_not, Bool.not_true] at h
      obtain ⟨⟨h1, h2⟩, h3⟩ := h
      refine Or.inr ⟨cs, f2, rfl, ?_, h2, h3⟩
      simpa using h1
  | nil =>
      rw [wfB] at h
      exact Bool.noConfusion (show false = true from h)
  | hashn d =>
      rw [wfB] at h
      exact Bool.noConfusion (show false = true from h)
  | short a b c =>
      rw [wfB] at h
      exact Bool.noConfusion (show false = true from h)

theorem wf_short_leaf {nk : List Nat} (d : List Nat) (f : NodeFlags)
    (h : goodNibsB nk = true) : wfB (.short nk (.valuen d) f) = true := by
  rw [wfB]
  exact h

theorem wf_short_ext {nk : List Nat} {cs : List Node} {f2 : NodeFlags} (f : NodeFlags)
    (h1 : nk ≠ []) (h2 : ∀ x ∈ nk, x < 16) (h3 : wfB (.full cs f2) = true) :
    wfB (.short nk (.full cs f2) f) = true := by
  rw [wfB]
  simp only [Bool.and_eq_true, List.all_eq_true, decide_eq_true_eq,
    Bool.not_eq_eq_eq_not, Bool.not_true]
  refine ⟨⟨?_, h2⟩, h3⟩
  simpa using h1

/-! Characterization of the slot scan. -/

theorem scanFrom_ge (cs : List Node) {i : Nat} (idx : Int) (h : 17 ≤ i) :
    scanFrom cs i idx = idx := by
  rw [scanFrom]
  rw [dif_neg (by omega)]

theorem scanFrom_step_null (cs : List Node) {i : Nat} (idx : Int) (hi : i < 17)
    (hnull : (cs.getD i Node.nil).isNull = true) :
    scanFrom cs i idx = scanFrom cs (i + 1) idx := by
  rw [scanFrom]
  rw [dif_pos hi, if_pos hnull]

theorem scanFrom_step_nonnull (cs : List Node) {i : Nat} (hi : i < 17)
    (hnn : (cs.getD i Node.nil).isNull = false) :
    scanFrom cs i (-1) = scanFrom cs (i + 1) (i : Int) := by
  rw [scanFrom]
  rw [dif_pos hi, if_neg (by rw [hnn]; simp), if_pos rfl]

theorem scanFrom_step_nonnull_pos (cs : List Node) {i : Nat} (k : Nat) (hi : i < 17)
    (hnn : (cs.getD i Node.nil).isNull = false) :
    scanFrom cs i (k : Int) = -2 := by
  rw [scanFrom]
  rw [dif_pos hi, if_neg (by rw [hnn]; simp), if_neg (by omega)]

theorem scanFrom_skip (cs : List Node) :
    ∀ (d i : Nat) (idx : Int), i + d ≤ 17 →
      (∀ m, i ≤ m → m < i + d → (cs.getD m Node.nil).isNull = true) →
      scanFrom cs i idx = scanFrom cs (i + d) idx := by
  intro d
  induction d with
  | zero => intro i idx _ _; rfl
  | succ d ih =>
      intro i idx hle hnull
      rw [scanFrom_step_null cs idx (by omega) (hnull i le_rfl (by omega))]
      have := ih (i + 1) idx (by omega) (fun m hm1 hm2 => hnull m (by omega) (by omega))
      rw [this]
      congr 1
      omega

theorem scanFrom_pos_of_allNull (cs : List Node) :
    ∀ (d i : Nat) (k : Nat), i + d = 17 →
      (∀ m, i ≤ m → m < 17 → (cs.getD m Node.nil).isNull = true) →
      scanFrom cs i (k : Int) = (k : Int) := by
  intro d i k hd hnull
  rw [scanFrom_skip cs d i (k : Int) (by omega)
    (fun m h1 h2 => hnull m h1 (by omega))]
  exact scanFrom_ge cs _ (by omega)

theorem scanFrom_pos_of_exNonNull (cs : List Node) :
    ∀ (d i : Nat) (k : Nat), i + d = 17 →
      (∃ m, i ≤ m ∧ m < 17 ∧ (cs.getD m Node.nil).isNull = false) →
      scanFrom cs i (k : Int) = -2 := by
  intro d
  induction d with
  | zero =>
      rintro i k hd ⟨m, hm1, hm2, _⟩
      omega
  | succ d ih =>
      rintro i k hd ⟨m, hm1, hm2, hmn⟩
      by_cases hni : (cs.getD i Node.nil).isNull = true
      · rw [scanFrom_step_null cs _ (by omega) hni]
        refine ih (i + 1) k (by omega) ⟨m, ?_, hm2, hmn⟩
        rcases Nat.eq_or_lt_of_le hm1 with rfl | h
        · rw [hni] at hmn
          cases hmn
        · omega
      · exact scanFrom_step_nonnull_pos cs k (by omega) (by simpa using hni)

theorem scanFrom_eq_cast (cs : List Node) :
    ∀ (d i : Nat) (i0 : Nat), i + d = 17 → scanFrom cs i (-1) = (i0 : Int) →
      i ≤ i0 ∧ i0 < 17 ∧ (cs.getD i0 Node.nil).isNull = false ∧
        ∀ j, i ≤ j → j < 17 → j ≠ i0 → (cs.getD j Node.nil).isNull = true := by
  intro d
  induction d with
  | zero =>
      intro i i0 hd h
      rw [scanFrom_ge cs _ (by omega)] at h
      exact absurd h (by omega)
  | succ d ih =>
      intro i i0 hd h
      by_cases hni : (cs.getD i Node.nil).isNull = true
      · rw [scanFrom_step_null cs _ (by omega) hni] at h
        obtain ⟨h1, h2, h3, h4⟩ := ih (i + 1) i0 (by omega) h
        refine ⟨by omega, h2, h3, ?_⟩
        intro j hj1 hj2 hj3
        rcases Nat.eq_or_lt_of_le hj1 with rfl | hlt
        · exact hni
        · exact h4 j (by omega) hj2 hj3
      · have hnn : (cs.getD i Node.nil).isNull = false := by simpa using hni
        rw [scanFrom_step_nonnull cs (by omega) hnn] at h
        by_cases hall : ∀ m, i + 1 ≤ m → m < 17 → (cs.getD m Node.nil).isNull = true
        · rw [scanFrom_pos_of_allNull cs d (i + 1) i (by omega) hall] at h
          have hii : i = i0 := by omega
          subst hii
          refine ⟨le_rfl, by omega, hnn, ?_⟩
          intro j hj1 hj2 hj3
          exact hall j (by omega) hj2
        · push_neg at hall
          obtain ⟨m, hm1, hm2, hm3⟩ := hall
          rw [scanFrom_pos_of_exNonNull cs d (i + 1) i (by omega)
            ⟨m, hm1, hm2, by simpa using hm3⟩] at h
          exact absurd h (by omega)

theorem scanIndex_eq_cast {cs : List Node} {i0 : Nat}
    (h : scanIndex cs = (i0 : Int)) :
    i0 < 17 ∧ (cs.getD i0 Node.nil).isNull = false ∧
      ∀ j, j < 17 → j ≠ i0 → (cs.getD j Node.nil).isNull = true := by
  obtain ⟨_, h2, h3, h4⟩ := scanFrom_eq_cast cs 17 0 i0 rfl h
  exact ⟨h2, h3, fun j hj1 hj2 => h4 j (Nat.zero_le _) hj1 hj2⟩

theorem scanIndex_of_exactlyOne (cs : List Node) (i0 : Nat) (h0 : i0 < 17)
    (hnn : (cs.getD i0 Node.nil).isNull = false)
    (hall : ∀ j, j < 17 → j ≠ i0 → (cs.getD j Node.nil).isNull = true) :
    scanIndex cs = (i0 : Int) := by
  unfold scanIndex
  rw [scanFrom_skip cs i0 0 (-1) (by omega)
    (fun m hm1 hm2 => hall m (by omega) (by omega))]
  rw [Nat.zero_add, scanFrom_step_nonnull cs h0 hnn]
  exact scanFrom_pos_of_allNull cs (17 - (i0 + 1)) (i0 + 1) i0 (by omega)
    (fun m hm1 hm2 => hall m hm2 (by omega))

theorem scanIndex_neg_of_two {cs : List Node} {j1 j2 : Nat} (h12 : j1 ≠ j2)
    (hj1 : j1 < 17) (hj2 : j2 < 17)
    (hn1 : (cs.getD j1 Node.nil).isNull = false)
    (hn2 : (cs.getD j2 Node.nil).isNull = false) :
    scanIndex cs < 0 := by
  by_contra hge
  push_neg at hge
  have hcast : scanIndex cs = ((scanIndex cs).toNat : Int) := by omega
  obtain ⟨_, _, hall⟩ := scanIndex_eq_cast hcast
  by_cases h1k : j1 = (scanIndex cs).toNat
  · subst h1k
    rw [hall j2 hj2 (by omega)] at hn2
    cases hn2
  · rw [hall j1 hj1 h1k] at hn1
    cases hn1

/-! Step equations of the three walks, one per node constructor. -/

theorem startsWith_iff {key p : List Nat} {off : Nat} :
    startsWith key p off = true ↔ p <+: key.drop off := by
  simp [startsWith, List.isPrefixOf_iff_prefix]

theorem getWalk_assert (t : Trie) (dec : List Nat → Node) (fuel : Nat) (n : Node)
    {kn : List Nat} {pos : Nat} (h : kn.length < pos) :
    t.getWalk dec fuel n kn pos = .error .assertFail := by
  rw [Trie.getWalk.eq_def]
  dsimp only
  rw [if_pos h]

theorem getWalk_nil (t : Trie) (dec : List Nat → Node) (fuel : Nat)
    {kn : List Nat} {pos : Nat} (h : pos ≤ kn.length) :
    t.getWalk dec fuel .nil kn pos = .ok (none, .nil, false) := by
  rw [Trie.getWalk.eq_def]
  dsimp only
  rw [if_neg (by omega)]

theorem getWalk_valuen (t : Trie) (dec : List Nat → Node) (fuel : Nat) (d : List Nat)
    {kn : List Nat} {pos : Nat} (h : pos ≤ kn.length) :
    t.getWalk dec fuel (.valuen d) kn pos = .ok (some d, .valuen d, false) := by
  rw [Trie.getWalk.eq_def]
  dsimp only
  rw [if_neg (by omega)]

theorem getWalk_short (t : Trie) (dec : List Nat → Node) (fuel : Nat)
    (nk : List Nat) (nv : Node) (nf : NodeFlags)
    {kn : List Nat} {pos : Nat} (h : pos ≤ kn.length) :
    t.getWalk dec fuel (.short nk nv nf) kn pos =
      if startsWith kn nk pos then
        match t.getWalk dec fuel nv kn (pos + nk.length) with
        | .error e => .error e
        | .ok (val, nn, res) =>
            if res then .ok (val, .short nk nn nf, true)
            else .ok (val, .short nk nv nf, false)
      else .ok (none, .short nk nv nf, false) := by
  rw [Trie.getWalk.eq_def]
  dsimp only
  rw [if_neg (by omega)]

theorem getWalk_full (t : Trie) (dec : List Nat → Node) (fuel : Nat)
    (cs : List Node) (nf : NodeFlags)
    {kn : List Nat} {pos : Nat} (h : pos ≤ kn.length) :
    t.getWalk dec fuel (.full cs nf) kn pos =
      match t.getWalk dec fuel (cs.getD (kn.getD pos 17) Node.nil) kn (pos + 1) with
      | .error e => .error e
      | .ok (val, nn, res) =>
          if res then .ok (val, .full (cs.set (kn.getD pos 17) nn) nf, true)
          else .ok (val, .full cs nf, false) := by
  rw [Trie.getWalk.eq_def]
  dsimp only
  rw [if_neg (by omega)]

theorem getWalk_hashn (t : Trie) (dec : List Nat → Node) (fuel : Nat) (dg : List Nat)
    {kn : List Nat} {pos : Nat} (h : pos ≤ kn.length) :
    t.getWalk dec (fuel + 1) (.hashn dg) kn pos =
      match t.resolveHash dec (.hashn dg) kn pos with
      | .error e => .error e
      | .ok child =>
          match t.getWalk dec fuel child kn pos with
          | .error e => .error e
          | .ok (val, nn, _) => .ok (val, nn, true) := by
  rw [Trie.getWalk.eq_def]
  dsimp only
  rw [if_neg (by omega)]

theorem insertWalk_assert (t : Trie) (dec : List Nat → Node) (fuel : Nat) (n : Node)
    {kn : List Nat} {pos : Nat} (value : Node) (h : kn.length < pos) :
    t.insertWalk dec fuel n kn pos value = .error .assertFail := by
  rw [Trie.insertWalk.eq_def]
  dsimp only
  rw [if_pos h]

theorem insertWalk_exhaust (t : Trie) (dec : List Nat → Node) (fuel : Nat) (n : Node)
    {kn : List Nat} {pos : Nat} (value : Node) (h : pos = kn.length) :
    t.insertWalk dec fuel n kn pos value =
      match n with
      | .valuen d =>
          match value with
          | .valuen vd => .ok (!(d == vd), value)
          | _ => .error (.typeError "Cannot read data of the value argument")
      | _ => .ok (true, value) := by
  rw [Trie.insertWalk.eq_def]
  dsimp only
  rw [if_neg (by omega), if_pos (by omega)]

theorem insertWalk_nil (t : Trie) (dec : List Nat → Node) (fuel : Nat)
    {kn : List Nat} {pos : Nat} (value : Node) (h : pos ≤ kn.length)
    (h2 : pos < kn.length) :
    t.insertWalk dec fuel .nil kn pos value =
      .ok (true, t.shortNode (kn.drop pos) value) := by
  rw [Trie.insertWalk.eq_def]
  dsimp only
  rw [if_neg (by omega), if_neg (by omega)]

theorem insertWalk_valuen_mid (t : Trie) (dec : List Nat → Node) (fuel : Nat)
    (d : List Nat) {kn : List Nat} {pos : Nat} (value : Node) (h2 : pos < kn.length) :
    t.insertWalk dec fuel (.valuen d) kn pos value =
      .error (.generic "Invalid node type.") := by
  rw [Trie.insertWalk.eq_def]
  dsimp only
  rw [if_neg (by omega), if_neg (by omega)]

theorem insertWalk_short (t : Trie) (dec : List Nat → Node) (fuel : Nat)
    (nk : List Nat) (nv : Node) (nf : NodeFlags)
    {kn : List Nat} {pos : Nat} (value : Node) (h2 : pos < kn.length) :
    t.insertWalk dec fuel (.short nk nv nf) kn pos value =
      (if prefixLen kn nk pos = nk.length then
        match t.insertWalk dec fuel nv kn (pos + prefixLen kn nk pos) value with
        | .error e => .error e
        | .ok (d, nn) =>
            if d then .ok (true, t.shortNode nk nn)
            else .ok (false, .short nk nv nf)
      else
        match t.insertWalk dec fuel .nil nk (prefixLen kn nk pos + 1) nv with
        | .error e => .error e
        | .ok (_, n1) =>
            match t.insertWalk dec fuel .nil kn (pos + prefixLen kn nk pos + 1) value with
            | .error e => .error e
            | .ok (_, n2) =>
                if prefixLen kn nk pos = 0 then
                  .ok (true, .full (((List.replicate 17 Node.nil).set
                    (nk.getD (prefixLen kn nk pos) 17) n1).set
                      (kn.getD (pos + prefixLen kn nk pos) 17) n2) t.flags)
                else
                  .ok (true, t.shortNode ((kn.drop pos).take (prefixLen kn nk pos))
                    (.full (((List.replicate 17 Node.nil).set
                      (nk.getD (prefixLen kn nk pos) 17) n1).set
                        (kn.getD (pos + prefixLen kn nk pos) 17) n2) t.flags))) := by
  rw [Trie.insertWalk.eq_def]
  dsimp only
  rw [if_neg (by omega), if_neg (by omega)]

theorem insertWalk_full (t : Trie) (dec : List Nat → Node) (fuel : Nat)
    (cs : List Node) (nf : NodeFlags)
    {kn : List Nat} {pos : Nat} (value : Node) (h2 : pos < kn.length) :
    t.insertWalk dec fuel (.full cs nf) kn pos value =
      match t.insertWalk dec fuel (cs.getD (kn.getD pos 17) Node.nil) kn (pos + 1) value with
      | .error e => .error e
      | .ok (d, nn) =>
          if d then .ok (true, .full (cs.set (kn.getD pos 17) nn) nf.dirtied)
          else .ok (false, .full cs nf) := by
  rw [Trie.insertWalk.eq_def]
  dsimp only
  rw [if_neg (by omega), if_neg (by omega)]

theorem insertWalk_hashn (t : Trie) (dec : List Nat → Node) (fuel : Nat) (dg : List Nat)
    {kn : List Nat} {pos : Nat} (value : Node) (h2 : pos < kn.length) :
    t.insertWalk dec (fuel + 1) (.hashn dg) kn pos value =
      match t.resolveHash dec (.hashn dg) kn pos with
      | .error e => .error e
      | .ok rn =>
          match t.insertWalk dec fuel rn kn pos value with
          | .error e => .error e
          | .ok (d, nn) => if d then .ok (true, nn) else .ok (false, rn) := by
  rw [Trie.insertWalk.eq_def]
  dsimp only
  rw [if_neg (by omega), if_neg (by omega)]

theorem removeWalk_assert (t : Trie) (dec : List Nat → Node) (fuel : Nat) (n : Node)
    {kn : List Nat} {pos : Nat} (h : kn.length < pos) :
    t.removeWalk dec fuel n kn pos = .error .assertFail := by
  rw [Trie.removeWalk.eq_def]
  dsimp only
  rw [if_pos h]

theorem removeWalk_nil (t : Trie) (dec : List Nat → Node) (fuel : Nat)
    {kn : List Nat} {pos : Nat} (h : pos ≤ kn.length) :
    t.removeWalk dec fuel .nil kn pos = .ok (false, .nil) := by
  rw [Trie.removeWalk.eq_def]
  dsimp only
  rw [if_neg (by omega)]

theorem removeWalk_valuen (t : Trie) (dec : List Nat → Node) (fuel : Nat) (d : List Nat)
    {kn : List Nat} {pos : Nat} (h : pos ≤ kn.length) :
    t.removeWalk dec fuel (.valuen d) kn pos = .ok (true, .nil) := by
  rw [Trie.removeWalk.eq_def]
  dsimp only
  rw [if_neg (by omega)]

theorem removeWalk_hashn (t : Trie) (dec : List Nat → Node) (fuel : Nat) (dg : List Nat)
    {kn : List Nat} {pos : Nat} (h : pos ≤ kn.length) :
    t.removeWalk dec (fuel + 1) (.hashn dg) kn pos =
      match t.resolveHash dec (.hashn dg) kn pos with
      | .error e => .error e
      | .ok rn =>
          match t.removeWalk dec fuel rn kn pos with
          | .error e => .error e
          | .ok (d, nn) => if d then .ok (true, nn) else .ok (false, rn) := by
  rw [Trie.removeWalk.eq_def]
  dsimp only
  rw [if_neg (by omega)]

theorem removeWalk_short (t : Trie) (dec : List Nat → Node) (fuel : Nat)
    (nk : List Nat) (nv : Node) (nf : NodeFlags)
    {kn : List Nat} {pos : Nat} (h : pos ≤ kn.length) :
    t.removeWalk dec fuel (.short nk nv nf) kn pos =
      (if prefixLen kn nk pos < nk.length then .ok (false, .short nk nv nf)
      else if prefixLen kn nk pos = kn.length - pos then .ok (true, .nil)
      else
        match t.removeWalk dec fuel nv kn (pos + nk.length) with
        | .error e => .error e
        | .ok (d, nn) =>
            if d then
              match nn with
              | .short nk2 nv2 _ => .ok (true, t.shortNode (nk ++ nk2) nv2)
              | _ => .ok (true, t.shortNode nk nn)
            else .ok (false, .short nk nv nf)) := by
  rw [Trie.removeWalk.eq_def]
  dsimp only
  rw [if_neg (by omega)]

theorem removeWalk_full (t : Trie) (dec : List Nat → Node) (fuel : Nat)
    (cs : List Node) (nf : NodeFlags)
    {kn : List Nat} {pos : Nat} (h : pos ≤ kn.length) :
    t.removeWalk dec fuel (.full cs nf) kn pos =
      match t.removeWalk dec fuel (cs.getD (kn.getD pos 17) Node.nil) kn (pos + 1) with
      | .error e => .error e
      | .ok (d, nn) =>
          if d then
            if 0 ≤ scanIndex (cs.set (kn.getD pos 17) nn) then
              if scanIndex (cs.set (kn.getD pos 17) nn) ≠ 16 then
                match t.resolve dec
                    ((cs.set (kn.getD pos 17) nn).getD
                      (scanIndex (cs.set (kn.getD pos 17) nn)).toNat Node.nil) kn
                    (scanIndex (cs.set (kn.getD pos 17) nn)).toNat with
                | .error e => .error e
                | .ok child =>
                    match child with
                    | .short ck cv _ =>
                        .ok (true, t.shortNode
                          ((scanIndex (cs.set (kn.getD pos 17) nn)).toNat :: ck) cv)
                    | _ =>
                        .ok (true, t.shortNode
                          [(scanIndex (cs.set (kn.getD pos 17) nn)).toNat]
                          ((cs.set (kn.getD pos 17) nn).getD
                            (scanIndex (cs.set (kn.getD pos 17) nn)).toNat Node.nil))
              else .ok (true, t.shortNode [16] ((cs.set (kn.getD pos 17) nn).getD 16 Node.nil))
            else .ok (true, .full (cs.set (kn.getD pos 17) nn) nf.dirtied)
          else .ok (false, .full cs nf) := by
  rw [Trie.removeWalk.eq_def]
  dsimp only
  rw [if_neg (by omega)]

/-! The _get walk on a well-formed Hash-free tree returns the find
denotation, leaves the tree untouched and reports no resolution. -/

theorem sizeOf_short_value_lt (nk : List Nat) (nv : Node) (nf : NodeFlags) :
    sizeOf nv < sizeOf (Node.short nk nv nf) := by
  simp [Node.short.sizeOf_spec]
  have := one_le_sizeOf_natList nk
  omega

theorem good_head_le16 {i : Nat} {rest : List Nat}
    (h : goodNibsB (i :: rest) = true) : i ≤ 16 :=
  good_le16 h (by simp)

theorem good_cons_tail {i : Nat} {rest : List Nat} (hi : i < 16)
    (h : goodNibsB (i :: rest) = true) : goodNibsB rest = true := by
  rcases good_cons h with ⟨he, _⟩ | ⟨_, hg⟩
  · omega
  · exact hg

theorem drop_len_lt {kn : List Nat} {pos : Nat} {i : Nat} {rest : List Nat}
    (h : kn.drop pos = i :: rest) : pos < kn.length := by
  have h2 := congrArg List.length h
  rw [List.length_drop] at h2
  simp only [List.length_cons] at h2
  omega

theorem getWalk_find (t : Trie) (dec : List Nat → Node) :
    ∀ (s : Nat) (n : Node), sizeOf n ≤ s → ∀ (fuel : Nat) (kn : List Nat) (pos : Nat),
      wfB n = true → pos ≤ kn.length → goodNibsB (kn.drop pos) = true →
      t.getWalk dec fuel n kn pos = .ok (find n (kn.drop pos), n, false) := by
  intro s
  induction s with
  | zero =>
      intro n hs
      have := one_le_sizeOf_node n
      omega
  | succ s ih =>
      intro n hs fuel kn pos hwf hpos hgood
      cases n with
      | nil =>
          rw [getWalk_nil t dec fuel hpos, find_nil]
      | valuen d =>
          rw [wfB] at hwf
          exact Bool.noConfusion hwf
      | hashn dg =>
          rw [wfB] at hwf
          exact Bool.noConfusion hwf
      | short nk nv nf =>
          rw [getWalk_short t dec fuel nk nv nf hpos, find_short]
          by_cases hsw : startsWith kn nk pos = true
          · have hpre : nk <+: kn.drop pos := startsWith_iff.mp hsw
            rw [if_pos hsw, if_pos (List.isPrefixOf_iff_prefix.mpr hpre)]
            rcases wf_short_cases hwf with ⟨d, hnv, hgoodnk⟩ | ⟨cs2, f2, hnv, hne, hlt, hwfv⟩
            · subst hnv
              have heq : nk = kn.drop pos := good_prefix_eq hgoodnk hgood hpre
              have hlen : pos + nk.length = kn.length := by
                have h2 := congrArg List.length heq
                rw [List.length_drop] at h2
                omega
              rw [getWalk_valuen t dec fuel d (by omega)]
              rw [find_valuen]
              rfl
            · subst hnv
              have hneq : nk ≠ kn.drop pos := by
                intro he
                obtain ⟨body, hb, _⟩ := good_iff.mp hgood
                have h16 : (16 : Nat) ∈ kn.drop pos := by
                  rw [hb]
                  simp
                rw [← he] at h16
                exact absurd (hlt 16 h16) (by omega)
              have hlenle : nk.length ≤ (kn.drop pos).length := hpre.length_le
              have hlenlt : nk.length < (kn.drop pos).length := by
                rcases Nat.lt_or_ge nk.length (kn.drop pos).length with hq | hq
                · exact hq
                · exact absurd (hpre.eq_of_length (by omega)) hneq
              rw [List.length_drop] at hlenlt
              have hgood2 : goodNibsB (kn.drop (pos + nk.length)) = true := by
                have := good_drop_chunk hgood hpre hlt
                rwa [List.drop_drop] at this
              have hrec := ih (.full cs2 f2)
                (by have := sizeOf_short_value_lt nk (.full cs2 f2) nf; omega)
                fuel kn (pos + nk.length) hwfv (by omega) hgood2
              rw [hrec]
              rw [← List.drop_drop]
              rfl
          · rw [if_neg hsw,
              if_neg (fun hc => hsw (startsWith_iff.mpr (List.isPrefixOf_iff_prefix.mp hc)))]
      | full cs nf =>
          obtain ⟨i, rest, hrem⟩ : ∃ i rest, kn.drop pos = i :: rest := by
            cases hd : kn.drop pos with
            | nil => exact absurd hd (good_ne_nil hgood)
            | cons i rest => exact ⟨i, rest, rfl⟩
          obtain ⟨hgetD, hdrop⟩ := drop_eq_cons_getD hrem
          have hposlt : pos < kn.length := drop_len_lt hrem
          have hgc : goodNibsB (i :: rest) = true := by
            rw [← hrem]
            exact hgood
          rw [getWalk_full t dec fuel cs nf hpos, hgetD, hrem, find_full_cons]
          by_cases h16 : i = 16
          · subst h16
            have hrest : rest = [] := good_head16 hgc
            subst hrest
            have hlenr : pos + 1 = kn.length := by
              have h2 := congrArg List.length hrem
              rw [List.length_drop] at h2
              simp only [List.length_cons, List.length_nil] at h2
              omega
            have h5 := wfFull_slot16 hwf
            cases hslot : cs.getD 16 Node.nil with
            | nil =>
                rw [getWalk_nil t dec fuel (by omega), find_nil]
                rfl
            | valuen d =>
                rw [getWalk_valuen t dec fuel d (by omega), find_valuen]
                rfl
            | hashn d =>
                rw [hslot] at h5
                simp [Node.isNull, Node.isValue] at h5
            | short a b c =>
                rw [hslot] at h5
                simp [Node.isNull, Node.isValue] at h5
            | full a b =>
                rw [hslot] at h5
                simp [Node.isNull, Node.isValue] at h5
          · have hi16 : i < 16 := by
              have := good_head_le16 hgc
              omega
            have hrgood : goodNibsB rest = true := good_cons_tail hi16 hgc
            have hcwf := wfFull_slot hwf (by omega) h16
            have hrec := ih (cs.getD i Node.nil)
              (by have := sizeOf_getD_lt cs nf i; omega)
              fuel kn (pos + 1) hcwf (by omega) (by rw [hdrop]; exact hrgood)
            rw [hrec, hdrop]
            rfl

/-! Further helpers for the insert and remove walk lemmas. -/

theorem prefix_decomp {p a : List Nat} (h : p <+: a) : a = p ++ a.drop p.length := by
  conv_lhs => rw [← List.take_append_drop p.length a]
  rw [← List.prefix_iff_eq_take.mp h]

theorem prefix_of_commonLen_eq_left {a b : List Nat} (h : commonLen a b = a.length) :
    a <+: b := by
  induction a generalizing b with
  | nil => simp
  | cons x xs ih =>
      cases b with
      | nil => simp [commonLen] at h
      | cons y ys =>
          by_cases hxy : x = y
          · subst hxy
            rw [commonLen_cons, if_pos rfl, List.length_cons] at h
            exact List.cons_prefix_cons.mpr ⟨rfl, ih (by omega)⟩
          · rw [commonLen_cons, if_neg hxy, List.length_cons] at h
            omega

theorem getD_drop (l : List Nat) (m n d : Nat) :
    (l.drop m).getD n d = l.getD (m + n) d := by
  rw [List.getD_eq_getElem?_getD, List.getD_eq_getElem?_getD, List.getElem?_drop]

theorem drop_eq_getD_cons {l : List Nat} {m : Nat} (h : m < l.length) :
    l.drop m = l.getD m 17 :: l.drop (m + 1) := by
  induction l generalizing m with
  | nil => simp at h
  | cons x xs ih =>
      cases m with
      | zero => simp [List.getD]
      | succ m' =>
          simp only [List.drop_succ_cons]
          rw [ih (by simpa using h)]
          rfl

theorem good_getD_last {ks : List Nat} (h : goodNibsB ks = true) :
    ks.getD (ks.length - 1) 17 = 16 := by
  obtain ⟨body, rfl, _⟩ := good_iff.mp h
  have hlen : (body ++ [16]).length = body.length + 1 := by simp
  rw [hlen]
  simp only [Nat.add_sub_cancel]
  rw [List.getD_append_right _ _ _ _ (le_refl _)]
  simp [List.getD]

theorem getD_mem {l : List Nat} {m : Nat} (h : m < l.length) (d : Nat) :
    l.getD m d ∈ l := by
  rw [List.getD_eq_getElem l d h]
  exact l.getElem_mem h

theorem good_getD_lt {ks : List Nat} (h : goodNibsB ks = true) {m : Nat}
    (hm : m + 1 < ks.length) : ks.getD m 17 < 16 := by
  obtain ⟨body, rfl, hlt⟩ := good_iff.mp h
  have hms : m < body.length := by
    simp only [List.length_append, List.length_cons, List.length_nil] at hm
    omega
  rw [List.getD_append _ _ _ _ hms]
  exact hlt _ (getD_mem hms 17)

theorem good_drop_at {ks : List Nat} (h : goodNibsB ks = true) {m : Nat}
    (hm : m < ks.length) : goodNibsB (ks.drop m) = true := by
  obtain ⟨body, rfl, hlt⟩ := good_iff.mp h
  have hms : m ≤ body.length := by
    simp only [List.length_append, List.length_cons, List.length_nil] at hm
    omega
  rw [List.drop_append_of_le_length hms]
  rw [good_iff]
  exact ⟨body.drop m, rfl, fun x hx => hlt x (List.mem_of_mem_drop hx)⟩

theorem getD_replicate_nil (k j : Nat) :
    (List.replicate k Node.nil).getD j Node.nil = Node.nil := by
  by_cases h : j < k
  · rw [List.getD_eq_getElem _ _ (by simpa using h)]
    exact List.getElem_replicate _ _
  · rw [List.getD_eq_default]
    simpa using h

theorem insertWalk_exhaust_nil (t : Trie) (dec : List Nat → Node) (fuel : Nat)
    {kn : List Nat} {pos : Nat} (value : Node) (h : pos = kn.length) :
    t.insertWalk dec fuel .nil kn pos value = .ok (true, value) := by
  rw [insertWalk_exhaust t dec fuel .nil value h]

theorem insertWalk_exhaust_valuen (t : Trie) (dec : List Nat → Node) (fuel : Nat)
    (d : List Nat) {kn : List Nat} {pos : Nat} (vd : List Nat) (h : pos = kn.length) :
    t.insertWalk dec fuel (.valuen d) kn pos (.valuen vd) =
      .ok (!(d == vd), .valuen vd) := by
  rw [insertWalk_exhaust t dec fuel (.valuen d) (.valuen vd) h]

theorem find_short' (nk : List Nat) (nv : Node) (f : NodeFlags) (ks : List Nat) :
    find (.short nk nv f) ks = if nk <+: ks then find nv (ks.drop nk.length) else none := by
  rw [find_short]
  by_cases h : nk <+: ks
  · rw [if_pos (List.isPrefixOf_iff_prefix.mpr h), if_pos h]
  · rw [if_neg (fun hc => h (List.isPrefixOf_iff_prefix.mp hc)), if_neg h]

/-- Branch built by the SHORTNODE split case of _insert: well-formedness and
denotation of the fresh 17-slot Full holding the two split-off subtrees. -/
theorem insert_split_branch (t : Trie) (vd : List Nat) (nv : Node)
    (rem nk : List Nat) (ml : Nat) (a b : Nat) (n1 n2 : Node)
    (hmllt : ml < nk.length) (hmlltL : ml < rem.length)
    (ha : nk.getD ml 17 = a) (hb : rem.getD ml 17 = b)
    (hab : b ≠ a) (ha16 : a ≤ 16) (hb16 : b ≤ 16)
    (hgoodrem : goodNibsB rem = true)
    (hn1find : ∀ ks2, find n1 ks2 =
      if nk.drop (ml + 1) <+: ks2 then find nv (ks2.drop (nk.length - (ml + 1))) else none)
    (hn2find : ∀ ks2, find n2 ks2 =
      if rem.drop (ml + 1) <+: ks2 then some vd else none)
    (hs1 : slotOkB a n1 = true) (hs2 : slotOkB b n2 = true) :
    wfB (.full (((List.replicate 17 Node.nil).set a n1).set b n2) t.flags) = true ∧
    (∀ ks1, goodNibsB ks1 = true →
      find (.full (((List.replicate 17 Node.nil).set a n1).set b n2) t.flags) ks1 =
        if ks1 = rem.drop ml then some vd
        else if nk.drop ml <+: ks1 then find nv (ks1.drop (nk.length - ml)) else none) := by
  have hlen1 : ((List.replicate 17 Node.nil).set a n1).length = 17 := by
    simp
  have hlen2 : (((List.replicate 17 Node.nil).set a n1).set b n2).length = 17 := by
    simp
  have hgb : (((List.replicate 17 Node.nil).set a n1).set b n2).getD b Node.nil = n2 :=
    getD_set_self (by omega) n2
  have hga : (((List.replicate 17 Node.nil).set a n1).set b n2).getD a Node.nil = n1 := by
    rw [getD_set_ne hab n2 Node.nil]
    exact getD_set_self (by simp; omega) n1
  have hgo : ∀ j, j ≠ a → j ≠ b →
      (((List.replicate 17 Node.nil).set a n1).set b n2).getD j Node.nil = Node.nil := by
    intro j hja hjb
    rw [getD_set_ne (fun h => hjb h.symm) n2 Node.nil,
      getD_set_ne (fun h => hja h.symm) n1 Node.nil]
    exact getD_replicate_nil 17 j
  have hdr : rem.drop ml = b :: rem.drop (ml + 1) := by
    rw [← hb]
    exact drop_eq_getD_cons hmlltL
  have hdk : nk.drop ml = a :: nk.drop (ml + 1) := by
    rw [← ha]
    exact drop_eq_getD_cons hmllt
  constructor
  · refine wfFull_of_slots _ hlen2 ?_ ?_
    · intro j hj hj16
      by_cases hjb : j = b
      · subst hjb
        rw [hgb]
        have h2 := hs2
        rw [slotOkB, if_neg hj16] at h2
        exact h2
      · by_cases hja : j = a
        · subst hja
          rw [hga]
          have h1 := hs1
          rw [slotOkB, if_neg hj16] at h1
          exact h1
        · rw [hgo j hja hjb]
          rfl
    · by_cases hb16' : b = 16
      · subst hb16'
        rw [hgb]
        have h2 := hs2
        rw [slotOkB, if_pos rfl] at h2
        exact h2
      · by_cases ha16' : a = 16
        · subst ha16'
          rw [hga]
          have h1 := hs1
          rw [slotOkB, if_pos rfl] at h1
          exact h1
        · rw [hgo 16 (fun h => ha16' h.symm) (fun h => hb16' h.symm)]
          rfl
  · intro ks1 hks1
    obtain ⟨j, ks2, rfl⟩ : ∃ j ks2, ks1 = j :: ks2 := by
      cases ks1 with
      | nil => exact absurd rfl (good_ne_nil hks1)
      | cons j ks2 => exact ⟨j, ks2, rfl⟩
    rw [find_full_cons]
    by_cases hjb : j = b
    · rw [hjb] at hks1 ⊢
      rw [hgb, hn2find ks2]
      by_cases hpre2 : rem.drop (ml + 1) <+: ks2
      · rw [if_pos hpre2]
        have hks1eq : b :: ks2 = rem.drop ml := by
          rw [hdr]
          by_cases hbv : b = 16
          · subst hbv
            have hml1 : ml + 1 = rem.length := by
              rcases Nat.lt_or_ge (ml + 1) rem.length with hq | hq
              · exact absurd (hb ▸ good_getD_lt hgoodrem hq) (by omega)
              · omega
            have he1 : ks2 = [] := good_head16 hks1
            have he2 : rem.drop (ml + 1) = [] := by
              rw [hml1]
              exact List.drop_length _
            rw [he1, he2]
          · have hlt2 : ml + 1 < rem.length := by
              rcases Nat.lt_or_ge (ml + 1) rem.length with hq | hq
              · exact hq
              · have : ml + 1 = rem.length := by omega
                have h3 := good_getD_last hgoodrem
                rw [show rem.length - 1 = ml from by omega] at h3
                rw [hb] at h3
                omega
            have hgood2 : goodNibsB (rem.drop (ml + 1)) = true :=
              good_drop_at hgoodrem hlt2
            have hbl : b < 16 := by omega
            have hks2good : goodNibsB ks2 = true := good_cons_tail hbl hks1
            rw [good_prefix_eq hgood2 hks2good hpre2]
        rw [if_pos hks1eq]
      · rw [if_neg hpre2]
        have hne1 : b :: ks2 ≠ rem.drop ml := by
          rw [hdr]
          intro h
          injection h with h1 h2
          exact hpre2 (h2 ▸ List.prefix_refl _)
        rw [if_neg hne1]
        have hnp : ¬ (nk.drop ml <+: b :: ks2) := by
          rw [hdk]
          intro h
          exact hab (List.cons_prefix_cons.mp h).1.symm
        rw [if_neg hnp]
    · rw [getD_set_ne (fun h => hjb h.symm) n2 Node.nil]
      by_cases hja : j = a
      · rw [hja] at hks1 ⊢
        rw [getD_set_self (by simp; omega) n1, hn1find ks2]
        have hne1 : a :: ks2 ≠ rem.drop ml := by
          rw [hdr]
          intro h
          injection h with h1 h2
          exact hab h1.symm
        rw [if_neg hne1]
        have hiff2 : nk.drop ml <+: a :: ks2 ↔ nk.drop (ml + 1) <+: ks2 := by
          rw [hdk, List.cons_prefix_cons]
          simp
        by_cases hp : nk.drop (ml + 1) <+: ks2
        · rw [if_pos hp, if_pos (hiff2.mpr hp)]
          have harith : nk.length - ml = (nk.length - (ml + 1)) + 1 := by omega
          rw [harith, List.drop_succ_cons]
        · rw [if_neg hp, if_neg (fun hc => hp (hiff2.mp hc))]
      · rw [getD_set_ne (fun h => hja h.symm) n1 Node.nil, getD_replicate_nil, find_nil]
        have hne1 : j :: ks2 ≠ rem.drop ml := by
          rw [hdr]
          intro h
          injection h with h1 h2
          exact hjb h1
        have hne2 : ¬ (nk.drop ml <+: j :: ks2) := by
          rw [hdk]
          intro h
          exact hja (List.cons_prefix_cons.mp h).1.symm
        rw [if_neg hne1, if_neg hne2]

/-- Core of the SHORTNODE split case of _insert: when the search key diverges
inside the short key, a fresh Full branch receives the two split-off
subtrees and is wrapped in a Short carrying the shared prefix when that
prefix is nonempty.  The resulting tree is well formed and denotes the old
map updated at the inserted key. -/
theorem insertWalk_split (t : Trie) (dec : List Nat → Node) (fuel : Nat)
    (nk : List Nat) (nv : Node) (nf : NodeFlags) (kn : List Nat) (pos : Nat)
    (vd : List Nat)
    (hwf : wfB (.short nk nv nf) = true)
    (hpos : pos ≤ kn.length) (hgood : goodNibsB (kn.drop pos) = true)
    (hposlt : pos < kn.length)
    (hml : prefixLen kn nk pos ≠ nk.length) :
    ∃ n', t.insertWalk dec fuel (.short nk nv nf) kn pos (.valuen vd) = .ok (true, n') ∧
      wfB n' = true ∧
      (∀ ks, goodNibsB ks = true →
        find n' ks = if ks = kn.drop pos then some vd
          else find (.short nk nv nf) ks) := by
  have hmldef : prefixLen kn nk pos = commonLen (kn.drop pos) nk := rfl
  have hmlle : prefixLen kn nk pos ≤ nk.length := by
    rw [hmldef]
    exact commonLen_le_right _ _
  have hmllt : prefixLen kn nk pos < nk.length := Nat.lt_of_le_of_ne hmlle hml
  have hmlleL : prefixLen kn nk pos ≤ (kn.drop pos).length := by
    rw [hmldef]
    exact commonLen_le_left _ _
  have h16mem : (16 : Nat) ∈ kn.drop pos := by
    obtain ⟨body, hb, _⟩ := good_iff.mp hgood
    rw [hb]
    simp
  have hwfc := wf_short_cases hwf
  have hmlltL : prefixLen kn nk pos < (kn.drop pos).length := by
    rcases Nat.lt_or_ge (prefixLen kn nk pos) (kn.drop pos).length with hq | hq
    · exact hq
    · exfalso
      have hpre : kn.drop pos <+: nk := by
        refine prefix_of_commonLen_eq_left ?_
        rw [← hmldef]
        omega
      rcases hwfc with ⟨dL, hnv, hgnk⟩ | ⟨csE, fE, hnv, hneE, hltE, hwfE⟩
      · have heq := good_prefix_eq hgood hgnk hpre
        have := commonLen_eq_right_of_prefix (a := kn.drop pos) (b := nk)
          (by rw [← heq])
        rw [← hmldef] at this
        omega
      · exact absurd (hltE 16 (hpre.subset h16mem)) (by omega)
  have hremlen : (kn.drop pos).length = kn.length - pos := List.length_drop _ _
  have hb_ne_a : (kn.drop pos).getD (prefixLen kn nk pos) 17 ≠
      nk.getD (prefixLen kn nk pos) 17 := by
    rw [hmldef]
    exact commonLen_getD_ne (by rw [← hmldef]; exact hmlltL) (by rw [← hmldef]; exact hmllt)
  have htake : (kn.drop pos).take (prefixLen kn nk pos) =
      nk.take (prefixLen kn nk pos) := by
    rw [hmldef]
    exact take_commonLen_eq _ _
  have hble : (kn.drop pos).getD (prefixLen kn nk pos) 17 ≤ 16 :=
    good_le16 hgood (getD_mem hmlltL 17)
  have hdropr : (kn.drop pos).drop (prefixLen kn nk pos) =
      (kn.drop pos).getD (prefixLen kn nk pos) 17 ::
        (kn.drop pos).drop (prefixLen kn nk pos + 1) :=
    drop_eq_getD_cons hmlltL
  have hdropk : nk.drop (prefixLen kn nk pos) =
      nk.getD (prefixLen kn nk pos) 17 :: nk.drop (prefixLen kn nk pos + 1) :=
    drop_eq_getD_cons hmllt
  have ha16 : nk.getD (prefixLen kn nk pos) 17 ≤ 16 := by
    rcases hwfc with ⟨dL, hnv, hgnk⟩ | ⟨csE, fE, hnv, hneE, hltE, hwfE⟩
    · exact good_le16 hgnk (getD_mem hmllt 17)
    · exact Nat.le_of_lt (Nat.lt_of_lt_of_le (hltE _ (getD_mem hmllt 17)) (by omega))
  have hn1 : ∃ n1,
      t.insertWalk dec fuel .nil nk (prefixLen kn nk pos + 1) nv = .ok (true, n1) ∧
      (∀ ks2, find n1 ks2 = if nk.drop (prefixLen kn nk pos + 1) <+: ks2 then
          find nv (ks2.drop (nk.length - (prefixLen kn nk pos + 1))) else none) ∧
      slotOkB (nk.getD (prefixLen kn nk pos) 17) n1 = true := by
    by_cases hx : prefixLen kn nk pos + 1 = nk.length
    · refine ⟨nv, insertWalk_exhaust_nil t dec fuel nv hx, ?_, ?_⟩
      · intro ks2
        rw [hx, List.drop_length, Nat.sub_self, List.drop_zero]
        rw [if_pos List.nil_prefix]
      · rcases hwfc with ⟨dL, hnv, hgnk⟩ | ⟨csE, fE, hnv, hneE, hltE, hwfE⟩
        · have h16 : nk.getD (prefixLen kn nk pos) 17 = 16 := by
            have h3 := good_getD_last hgnk
            rw [show nk.length - 1 = prefixLen kn nk pos from by omega] at h3
            exact h3
          rw [h16, hnv, slotOkB, if_pos rfl]
          rfl
        · have hlt : nk.getD (prefixLen kn nk pos) 17 < 16 :=
            hltE _ (getD_mem hmllt 17)
          rw [slotOkB, if_neg (by omega)]
          rw [hnv] at hwfE ⊢
          exact hwfE
    · have hx2 : prefixLen kn nk pos + 1 < nk.length := by omega
      refine ⟨t.shortNode (nk.drop (prefixLen kn nk pos + 1)) nv,
        insertWalk_nil t dec fuel nv (by omega) (by omega), ?_, ?_⟩
      · intro ks2
        simp only [Trie.shortNode]
        rw [find_short', List.length_drop]
      · rcases hwfc with ⟨dL, hnv, hgnk⟩ | ⟨csE, fE, hnv, hneE, hltE, hwfE⟩
        · have hlt : nk.getD (prefixLen kn nk pos) 17 < 16 := good_getD_lt hgnk hx2
          rw [slotOkB, if_neg (by omega), hnv]
          simp only [Trie.shortNode]
          exact wf_short_leaf dL _ (good_drop_at hgnk (by omega))
        · have hlt : nk.getD (prefixLen kn nk pos) 17 < 16 := hltE _ (getD_mem hmllt 17)
          rw [slotOkB, if_neg (by omega), hnv]
          simp only [Trie.shortNode]
          refine wf_short_ext _ ?_ ?_ ?_
          · intro hnil
            have h3 := congrArg List.length hnil
            rw [List.length_drop] at h3
            simp only [List.length_nil] at h3
            omega
          · intro x hx3
            exact hltE x (List.mem_of_mem_drop hx3)
          · rw [hnv] at hwfE
            exact hwfE
  have hn2 : ∃ n2,
      t.insertWalk dec fuel .nil kn (pos + prefixLen kn nk pos + 1) (.valuen vd) =
        .ok (true, n2) ∧
      (∀ ks2, find n2 ks2 =
        if (kn.drop pos).drop (prefixLen kn nk pos + 1) <+: ks2 then some vd else none) ∧
      slotOkB ((kn.drop pos).getD (prefixLen kn nk pos) 17) n2 = true := by
    have hdd : kn.drop (pos + prefixLen kn nk pos + 1) =
        (kn.drop pos).drop (prefixLen kn nk pos + 1) := by
      rw [List.drop_drop]
      congr 1
    by_cases hx : prefixLen kn nk pos + 1 = (kn.drop pos).length
    · have hx' : pos + prefixLen kn nk pos + 1 = kn.length := by
        rw [hremlen] at hx
        omega
      refine ⟨.valuen vd, insertWalk_exhaust_nil t dec fuel (.valuen vd) hx', ?_, ?_⟩
      · intro ks2
        rw [find_valuen, hx, List.drop_length]
        rw [if_pos List.nil_prefix]
      · have h16 : (kn.drop pos).getD (prefixLen kn nk pos) 17 = 16 := by
          have h3 := good_getD_last hgood
          rw [show (kn.drop pos).length - 1 = prefixLen kn nk pos from by omega] at h3
          exact h3
        rw [h16, slotOkB, if_pos rfl]
        rfl
    · have hx2 : prefixLen kn nk pos + 1 < (kn.drop pos).length := by omega
      have hx3 : pos + prefixLen kn nk pos + 1 < kn.length := by
        rw [hremlen] at hx2
        omega
      refine ⟨t.shortNode (kn.drop (pos + prefixLen kn nk pos + 1)) (.valuen vd),
        insertWalk_nil t dec fuel (.valuen vd) (by omega) hx3, ?_, ?_⟩
      · intro ks2
        simp only [Trie.shortNode]
        rw [find_short', hdd]
        by_cases hp : (kn.drop pos).drop (prefixLen kn nk pos + 1) <+: ks2
        · rw [if_pos hp, if_pos hp, find_valuen]
        · rw [if_neg hp, if_neg hp]
      · have hlt : (kn.drop pos).getD (prefixLen kn nk pos) 17 < 16 :=
          good_getD_lt hgood hx2
        rw [slotOkB, if_neg (by omega)]
        simp only [Trie.shortNode]
        refine wf_short_leaf vd _ ?_
        rw [hdd]
        exact good_drop_at hgood (by omega)
  obtain ⟨n1, hn1eq, hn1find, hn1slot⟩ := hn1
  obtain ⟨n2, hn2eq, hn2find, hn2slot⟩ := hn2
  have hbkn : kn.getD (pos + prefixLen kn nk pos) 17 =
      (kn.drop pos).getD (prefixLen kn nk pos) 17 :=
    (getD_drop kn pos (prefixLen kn nk pos) 17).symm
  have heval : t.insertWalk dec fuel (.short nk nv nf) kn pos (.valuen vd) =
      if prefixLen kn nk pos = 0 then
        .ok (true, .full (((List.replicate 17 Node.nil).set
          (nk.getD (prefixLen kn nk pos) 17) n1).set
            ((kn.drop pos).getD (prefixLen kn nk pos) 17) n2) t.flags)
      else
        .ok (true, t.shortNode ((kn.drop pos).take (prefixLen kn nk pos))
          (.full (((List.replicate 17 Node.nil).set
            (nk.getD (prefixLen kn nk pos) 17) n1).set
              ((kn.drop pos).getD (prefixLen kn nk pos) 17) n2) t.flags)) := by
    rw [insertWalk_short t dec fuel nk nv nf (.valuen vd) hposlt, if_neg hml, hn1eq]
    dsimp only
    rw [hn2eq]
    dsimp only
    rw [hbkn]
  obtain ⟨hbwf, hbfind⟩ := insert_split_branch t vd nv (kn.drop pos) nk
    (prefixLen kn nk pos) (nk.getD (prefixLen kn nk pos) 17)
    ((kn.drop pos).getD (prefixLen kn nk pos) 17) n1 n2 hmllt hmlltL rfl rfl
    hb_ne_a ha16 hble hgood hn1find hn2find hn1slot hn2slot
  by_cases hml0 : prefixLen kn nk pos = 0
  · refine ⟨_, by rw [heval, if_pos hml0], hbwf, ?_⟩
    intro ks hks
    rw [hbfind ks hks, find_short', hml0]
    simp only [List.drop_zero, Nat.sub_zero]
  · refine ⟨_, by rw [heval, if_neg hml0], ?_, ?_⟩
    · simp only [Trie.shortNode]
      refine wf_short_ext _ ?_ ?_ hbwf
      · intro h
        have h3 := congrArg List.length h
        rw [List.length_take] at h3
        simp only [List.length_nil] at h3
        omega
      · exact good_take_lt hgood hmlltL
    · intro ks hks
      simp only [Trie.shortNode]
      rw [find_short']
      have hlentake : ((kn.drop pos).take (prefixLen kn nk pos)).length =
          prefixLen kn nk pos := by
        rw [List.length_take]
        omega
      have hnk_decomp : nk =
          (kn.drop pos).take (prefixLen kn nk pos) ++ nk.drop (prefixLen kn nk pos) := by
        conv_lhs => rw [← List.take_append_drop (prefixLen kn nk pos) nk]
        rw [htake]
      have hiffp : ∀ ks0 : List Nat, nk <+: ks0 ↔
          ((kn.drop pos).take (prefixLen kn nk pos) <+: ks0 ∧
            nk.drop (prefixLen kn nk pos) <+: ks0.drop (prefixLen kn nk pos)) := by
        intro ks0
        conv_lhs => rw [hnk_decomp]
        rw [append_prefix_iff, hlentake]
      by_cases hp : (kn.drop pos).take (prefixLen kn nk pos) <+: ks
      · rw [if_pos hp, hlentake]
        have hgtake : ∀ x ∈ (kn.drop pos).take (prefixLen kn nk pos), x < 16 :=
          good_take_lt hgood hmlltL
        have hks1good : goodNibsB (ks.drop (prefixLen kn nk pos)) = true := by
          have h3 := good_drop_chunk hks hp hgtake
          rw [hlentake] at h3
          exact h3
        rw [hbfind (ks.drop (prefixLen kn nk pos)) hks1good]
        have hdecomp_ks : ks = (kn.drop pos).take (prefixLen kn nk pos) ++
            ks.drop (prefixLen kn nk pos) := by
          have h3 := prefix_decomp hp
          rw [hlentake] at h3
          exact h3
        have hiffeq : ks.drop (prefixLen kn nk pos) =
            (kn.drop pos).drop (prefixLen kn nk pos) ↔ ks = kn.drop pos := by
          constructor
          · intro h
            rw [hdecomp_ks, h, List.take_append_drop]
          · intro h
            rw [h]
        have hdropc : (ks.drop (prefixLen kn nk pos)).drop
            (nk.length - prefixLen kn nk pos) = ks.drop nk.length := by
          rw [List.drop_drop]
          congr 1
          omega
        by_cases hkr : ks = kn.drop pos
        · rw [if_pos hkr, if_pos (hiffeq.mpr hkr)]
        · rw [if_neg hkr, if_neg (fun hc => hkr (hiffeq.mp hc)), find_short']
          by_cases hnkp : nk <+: ks
          · rw [if_pos hnkp, if_pos ((hiffp ks).mp hnkp).2, hdropc]
          · rw [if_neg hnkp, if_neg (fun hc => hnkp ((hiffp ks).mpr ⟨hp, hc⟩))]
      · rw [if_neg hp]
        have hkr : ks ≠ kn.drop pos := by
          intro h
          refine hp ?_
          rw [h]
          exact List.take_prefix _ _
        have hnkp : ¬ nk <+: ks := fun hc => hp ((hiffp ks).mp hc).1
        rw [if_neg hkr, find_short', if_neg hnkp]

/-- Main lemma about _insert on a well-formed Hash-free tree: the walk
succeeds, preserves well-formedness, reports changed exactly when the stored
value differs, returns the original node unchanged when nothing changed, and
denotes the old map updated at the inserted key. -/
theorem insertWalk_main (t : Trie) (dec : List Nat → Node) :
    ∀ (s : Nat) (n : Node), sizeOf n ≤ s →
      ∀ (fuel : Nat) (kn : List Nat) (pos : Nat) (vd : List Nat),
      wfB n = true → pos ≤ kn.length → goodNibsB (kn.drop pos) = true →
      ∃ d n', t.insertWalk dec fuel n kn pos (.valuen vd) = .ok (d, n') ∧
        wfB n' = true ∧
        (d = false → n' = n) ∧
        (d = false ↔ find n (kn.drop pos) = some vd) ∧
        (n.isFull = true → n'.isFull = true) ∧
        (∀ ks, goodNibsB ks = true →
          find n' ks = if ks = kn.drop pos then some vd else find n ks) := by
  intro s
  induction s with
  | zero =>
      intro n hs
      have := one_le_sizeOf_node n
      omega
  | succ s ih =>
      intro n hs fuel kn pos vd hwf hpos hgood
      have hposlt : pos < kn.length := by
        by_contra hc
        push_neg at hc
        exact good_ne_nil hgood (List.drop_eq_nil_of_le hc)
      cases n with
      | valuen d =>
          rw [wfB] at hwf
          exact Bool.noConfusion hwf
      | hashn dg =>
          rw [wfB] at hwf
          exact Bool.noConfusion hwf
      | nil =>
          refine ⟨true, t.shortNode (kn.drop pos) (.valuen vd),
            insertWalk_nil t dec fuel (.valuen vd) hpos hposlt, ?_, ?_, ?_, ?_, ?_⟩
          · simp only [Trie.shortNode]
            exact wf_short_leaf vd _ hgood
          · intro h
            exact Bool.noConfusion h
          · constructor
            · intro h
              exact Bool.noConfusion h
            · intro h
              rw [find_nil] at h
              exact Option.noConfusion h
          · intro h
            exact Bool.noConfusion h
          · intro ks hks
            simp only [Trie.shortNode]
            rw [find_short']
            by_cases hpre : kn.drop pos <+: ks
            · have heq := good_prefix_eq hgood hks hpre
              rw [if_pos hpre, if_pos heq.symm, find_valuen]
            · rw [if_neg hpre, if_neg ?_, find_nil]
              intro h
              rw [h] at hpre
              exact hpre (List.prefix_refl _)
      | short nk nv nf =>
          have hmldef : prefixLen kn nk pos = commonLen (kn.drop pos) nk := rfl
          by_cases hml : prefixLen kn nk pos = nk.length
          · have hpre : nk <+: kn.drop pos := by
              refine prefix_of_commonLen_eq_right ?_
              rw [← hmldef]
              exact hml
            rcases wf_short_cases hwf with ⟨dL, hnv, hgnk⟩ | ⟨csE, fE, hnv, hneE, hltE, hwfE⟩
            · subst hnv
              have heq : nk = kn.drop pos := good_prefix_eq hgnk hgood hpre
              have hlen : pos + nk.length = kn.length := by
                have h2 := congrArg List.length heq
                rw [List.length_drop] at h2
                omega
              have hfind0 : find (.short nk (.valuen dL) nf) (kn.drop pos) = some dL := by
                rw [find_short', if_pos hpre, find_valuen]
              by_cases hdv : dL = vd
              · have hbeq : (!(dL == vd)) = false := by
                  rw [beq_iff_eq.mpr hdv]
                  rfl
                have heval : t.insertWalk dec fuel (.short nk (.valuen dL) nf) kn pos
                    (.valuen vd) = .ok (false, .short nk (.valuen dL) nf) := by
                  rw [insertWalk_short t dec fuel nk (.valuen dL) nf (.valuen vd) hposlt,
                    if_pos hml, hml,
                    insertWalk_exhaust_valuen t dec fuel dL vd hlen]
                  dsimp only
                  rw [hbeq]
                  rfl
                refine ⟨false, .short nk (.valuen dL) nf, heval, hwf, fun _ => rfl, ?_, ?_, ?_⟩
                · exact ⟨fun _ => by rw [hfind0, hdv], fun _ => rfl⟩
                · intro h
                  exact h
                · intro ks hks
                  by_cases hkr : ks = kn.drop pos
                  · rw [if_pos hkr, hkr, hfind0, hdv]
                  · rw [if_neg hkr]
              · have hbeq : (!(dL == vd)) = true := by
                  rw [beq_eq_false_iff_ne.mpr hdv]
                  rfl
                have heval : t.insertWalk dec fuel (.short nk (.valuen dL) nf) kn pos
                    (.valuen vd) = .ok (true, t.shortNode nk (.valuen vd)) := by
                  rw [insertWalk_short t dec fuel nk (.valuen dL) nf (.valuen vd) hposlt,
                    if_pos hml, hml,
                    insertWalk_exhaust_valuen t dec fuel dL vd hlen]
                  dsimp only
                  rw [hbeq]
                  rfl
                refine ⟨true, t.shortNode nk (.valuen vd), heval, ?_, ?_, ?_, ?_, ?_⟩
                · simp only [Trie.shortNode]
                  exact wf_short_leaf vd _ hgnk
                · intro h
                  exact Bool.noConfusion h
                · constructor
                  · intro h
                    exact Bool.noConfusion h
                  · intro h
                    rw [hfind0] at h
                    exact absurd (Option.some.inj h) hdv
                · intro h
                  exact Bool.noConfusion h
                · intro ks hks
                  simp only [Trie.shortNode]
                  rw [find_short']
                  by_cases hpk : nk <+: ks
                  · have heq2 : nk = ks := good_prefix_eq hgnk hks hpk
                    rw [if_pos hpk, if_pos (by rw [← heq2, heq]), find_valuen]
                  · have hkr : ks ≠ kn.drop pos := by
                      intro h
                      rw [h, ← heq] at hpk
                      exact hpk (List.prefix_refl _)
                    rw [if_neg hpk, if_neg hkr, find_short', if_neg hpk]
            · subst hnv
              have hneq : nk ≠ kn.drop pos := by
                intro he
                obtain ⟨body, hb, _⟩ := good_iff.mp hgood
                have h16 : (16 : Nat) ∈ kn.drop pos := by
                  rw [hb]
                  simp
                rw [← he] at h16
                exact absurd (hltE 16 h16) (by omega)
              have hlenlt : nk.length < (kn.drop pos).length := by
                rcases Nat.lt_or_ge nk.length (kn.drop pos).length with hq | hq
                · exact hq
                · exact absurd (hpre.eq_of_length (by
                    have := hpre.length_le
                    omega)) hneq
              rw [List.length_drop] at hlenlt
              have hdd2 : (kn.drop pos).drop nk.length = kn.drop (pos + nk.length) :=
                List.drop_drop _ _ _
              have hgood2 : goodNibsB (kn.drop (pos + nk.length)) = true := by
                have h3 := good_drop_chunk hgood hpre hltE
                rwa [hdd2] at h3
              obtain ⟨d, nn, heqI, hwfI, hfalseI, hiffI, hfullI, hexI⟩ :=
                ih (.full csE fE)
                  (by have := sizeOf_short_value_lt nk (.full csE fE) nf; omega)
                  fuel kn (pos + nk.length) vd hwfE (by omega) hgood2
              have hfindn : find (.short nk (.full csE fE) nf) (kn.drop pos) =
                  find (.full csE fE) (kn.drop (pos + nk.length)) := by
                rw [find_short', if_pos hpre, hdd2]
              cases d with
              | false =>
                  have heval : t.insertWalk dec fuel (.short nk (.full csE fE) nf) kn pos
                      (.valuen vd) = .ok (false, .short nk (.full csE fE) nf) := by
                    rw [insertWalk_short t dec fuel nk (.full csE fE) nf (.valuen vd) hposlt,
                      if_pos hml, hml, heqI]
                    rfl
                  refine ⟨false, .short nk (.full csE fE) nf, heval, hwf, fun _ => rfl,
                    ?_, fun h => h, ?_⟩
                  · rw [hfindn]
                    exact hiffI
                  · intro ks hks
                    by_cases hkr : ks = kn.drop pos
                    · rw [if_pos hkr, hkr, hfindn]
                      exact hiffI.mp rfl
                    · rw [if_neg hkr]
              | true =>
                  have hnnf : nn.isFull = true := hfullI rfl
                  obtain ⟨csN, fN, hnnEq⟩ : ∃ c f, nn = Node.full c f := by
                    cases nn with
                    | full c f => exact ⟨c, f, rfl⟩
                    | nil => exact Bool.noConfusion hnnf
                    | hashn d2 => exact Bool.noConfusion hnnf
                    | short a b c => exact Bool.noConfusion hnnf
                    | valuen d2 => exact Bool.noConfusion hnnf
                  subst hnnEq
                  have heval : t.insertWalk dec fuel (.short nk (.full csE fE) nf) kn pos
                      (.valuen vd) = .ok (true, t.shortNode nk (.full csN fN)) := by
                    rw [insertWalk_short t dec fuel nk (.full csE fE) nf (.valuen vd) hposlt,
                      if_pos hml, hml, heqI]
                    rfl
                  refine ⟨true, t.shortNode nk (.full csN fN), heval, ?_, ?_, ?_, ?_, ?_⟩
                  · simp only [Trie.shortNode]
                    exact wf_short_ext _ hneE hltE hwfI
                  · intro h
                    exact Bool.noConfusion h
                  · constructor
                    · intro h
                      exact Bool.noConfusion h
                    · intro h
                      rw [hfindn] at h
                      exact Bool.noConfusion (hiffI.mpr h)
                  · intro h
                    exact Bool.noConfusion h
                  · intro ks hks
                    simp only [Trie.shortNode]
                    rw [find_short']
                    by_cases hpk : nk <+: ks
                    · have hksg : goodNibsB (ks.drop nk.length) = true :=
                        good_drop_chunk hks hpk hltE
                      rw [if_pos hpk, hexI _ hksg]
                      have hiff3 : ks = kn.drop pos ↔
                          ks.drop nk.length = kn.drop (pos + nk.length) := by
                        constructor
                        · intro h
                          rw [h, hdd2]
                        · intro h
                          rw [prefix_decomp hpk, h, ← hdd2, ← prefix_decomp hpre]
                      by_cases hkr : ks = kn.drop pos
                      · rw [if_pos (hiff3.mp hkr), if_pos hkr]
                      · rw [if_neg (fun hc => hkr (hiff3.mpr hc)), if_neg hkr,
                          find_short', if_pos hpk]
                    · have hkr : ks ≠ kn.drop pos := by
                        intro h
                        rw [h] at hpk
                        exact hpk hpre
                      rw [if_neg hpk, if_neg hkr, find_short', if_neg hpk]
          · obtain ⟨n', heval, hwf', hex'⟩ :=
              insertWalk_split t dec fuel nk nv nf kn pos vd hwf hpos hgood hposlt hml
            have hnp : ¬ nk <+: kn.drop pos := by
              intro hc
              refine hml ?_
              rw [hmldef]
              exact commonLen_eq_right_of_prefix hc
            refine ⟨true, n', heval, hwf', ?_, ?_, ?_, hex'⟩
            · intro h
              exact Bool.noConfusion h
            · constructor
              · intro h
                exact Bool.noConfusion h
              · intro h
                rw [find_short', if_neg hnp] at h
                exact Option.noConfusion h
            · intro h
              exact Bool.noConfusion h
      | full cs nf =>
          obtain ⟨i, rest, hrem⟩ : ∃ i rest, kn.drop pos = i :: rest := by
            cases hd : kn.drop pos with
            | nil => exact absurd hd (good_ne_nil hgood)
            | cons i rest => exact ⟨i, rest, rfl⟩
          obtain ⟨hgetD, hdrop⟩ := drop_eq_cons_getD hrem
          have hgc : goodNibsB (i :: rest) = true := by
            rw [← hrem]
            exact hgood
          have hlen17 := wfFull_len hwf
          by_cases h16 : i = 16
          · subst h16
            have hrest : rest = [] := good_head16 hgc
            subst hrest
            have hlenr : pos + 1 = kn.length := by
              have h2 := congrArg List.length hrem
              rw [List.length_drop] at h2
              simp only [List.length_cons, List.length_nil] at h2
              omega
            have h5 := wfFull_slot16 hwf
            have hwfset : ∀ nn2 : Node, nn2.isValue = true →
                wfB (.full (cs.set 16 nn2) nf.dirtied) = true := by
              intro nn2 hnn2
              refine wfFull_of_slots _ (by rw [List.length_set]; exact hlen17) ?_ ?_
              · intro j hj hj16
                rw [getD_set_ne (fun h => hj16 h.symm) nn2 Node.nil]
                exact wfFull_slot hwf hj hj16
              · rw [getD_set_self (by omega) nn2]
                rw [hnn2]
                simp
            cases hslot : cs.getD 16 Node.nil with
            | nil =>
                have heval : t.insertWalk dec fuel (.full cs nf) kn pos (.valuen vd) =
                    .ok (true, .full (cs.set 16 (.valuen vd)) nf.dirtied) := by
                  rw [insertWalk_full t dec fuel cs nf (.valuen vd) hposlt, hgetD, hslot,
                    insertWalk_exhaust_nil t dec fuel (.valuen vd) hlenr]
                  rfl
                refine ⟨true, _, heval, hwfset _ rfl, ?_, ?_, ?_, ?_⟩
                · intro h
                  exact Bool.noConfusion h
                · constructor
                  · intro h
                    exact Bool.noConfusion h
                  · intro h
                    rw [hrem, find_full_cons, hslot, find_nil] at h
                    exact Option.noConfusion h
                · intro _
                  rfl
                · intro ks hks
                  obtain ⟨j, ks2, rfl⟩ : ∃ j ks2, ks = j :: ks2 := by
                    cases ks with
                    | nil => exact absurd rfl (good_ne_nil hks)
                    | cons j ks2 => exact ⟨j, ks2, rfl⟩
                  rw [find_full_cons]
                  by_cases hj16 : j = 16
                  · subst hj16
                    have hks2 : ks2 = [] := good_head16 hks
                    subst hks2
                    rw [getD_set_self (by omega) (.valuen vd), find_valuen,
                      if_pos (by rw [hrem])]
                  · rw [getD_set_ne (fun h => hj16 h.symm) (.valuen vd) Node.nil]
                    rw [if_neg (by rw [hrem]; intro h; injection h with h1 _; exact hj16 h1)]
                    rw [find_full_cons]
            | valuen d0 =>
                by_cases hdv : d0 = vd
                · have hbeq : (!(d0 == vd)) = false := by
                    rw [beq_iff_eq.mpr hdv]
                    rfl
                  have heval : t.insertWalk dec fuel (.full cs nf) kn pos (.valuen vd) =
                      .ok (false, .full cs nf) := by
                    rw [insertWalk_full t dec fuel cs nf (.valuen vd) hposlt, hgetD, hslot,
                      insertWalk_exhaust_valuen t dec fuel d0 vd hlenr]
                    dsimp only
                    rw [hbeq]
                    rfl
                  refine ⟨false, .full cs nf, heval, hwf, fun _ => rfl, ?_, fun h => h, ?_⟩
                  · refine ⟨fun _ => ?_, fun _ => rfl⟩
                    rw [hrem, find_full_cons, hslot, find_valuen, hdv]
                  · intro ks hks
                    by_cases hkr : ks = kn.drop pos
                    · rw [if_pos hkr, hkr, hrem, find_full_cons, hslot, find_valuen, hdv]
                    · rw [if_neg hkr]
                · have hbeq : (!(d0 == vd)) = true := by
                    rw [beq_eq_false_iff_ne.mpr hdv]
                    rfl
                  have heval : t.insertWalk dec fuel (.full cs nf) kn pos (.valuen vd) =
                      .ok (true, .full (cs.set 16 (.valuen vd)) nf.dirtied) := by
                    rw [insertWalk_full t dec fuel cs nf (.valuen vd) hposlt, hgetD, hslot,
                      insertWalk_exhaust_valuen t dec fuel d0 vd hlenr]
                    dsimp only
                    rw [hbeq]
                    rfl
                  refine ⟨true, _, heval, hwfset _ rfl, ?_, ?_, ?_, ?_⟩
                  · intro h
                    exact Bool.noConfusion h
                  · constructor
                    · intro h
                      exact Bool.noConfusion h
                    · intro h
                      rw [hrem, find_full_cons, hslot, find_valuen] at h
                      exact absurd (Option.some.inj h) hdv
                  · intro _
                    rfl
                  · intro ks hks
                    obtain ⟨j, ks2, rfl⟩ : ∃ j ks2, ks = j :: ks2 := by
                      cases ks with
                      | nil => exact absurd rfl (good_ne_nil hks)
                      | cons j ks2 => exact ⟨j, ks2, rfl⟩
                    rw [find_full_cons]
                    by_cases hj16 : j = 16
                    · subst hj16
                      have hks2 : ks2 = [] := good_head16 hks
                      subst hks2
                      rw [getD_set_self (by omega) (.valuen vd), find_valuen,
                        if_pos (by rw [hrem])]
                    · rw [getD_set_ne (fun h => hj16 h.symm) (.valuen vd) Node.nil]
                      rw [if_neg (by rw [hrem]; intro h; injection h with h1 _; exact hj16 h1)]
                      rw [find_full_cons]
            | hashn d2 =>
                rw [hslot] at h5
                simp [Node.isNull, Node.isValue] at h5
            | short a b c =>
                rw [hslot] at h5
                simp [Node.isNull, Node.isValue] at h5
            | full a b =>
                rw [hslot] at h5
                simp [Node.isNull, Node.isValue] at h5
          · have hi16 : i < 16 := by
              have := good_head_le16 hgc
              omega
            have hrgood : goodNibsB rest = true := good_cons_tail hi16 hgc
            have hcwf := wfFull_slot hwf (by omega) h16
            obtain ⟨d, nn, heqI, hwfI, hfalseI, hiffI, hfullI, hexI⟩ :=
              ih (cs.getD i Node.nil)
                (by have := sizeOf_getD_lt cs nf i; omega)
                fuel kn (pos + 1) vd hcwf (by omega) (by rw [hdrop]; exact hrgood)
            have hfindn : find (.full cs nf) (kn.drop pos) =
                find (cs.getD i Node.nil) (kn.drop (pos + 1)) := by
              rw [hrem, find_full_cons, hdrop]
            cases d with
            | false =>
                have heval : t.insertWalk dec fuel (.full cs nf) kn pos (.valuen vd) =
                    .ok (false, .full cs nf) := by
                  rw [insertWalk_full t dec fuel cs nf (.valuen vd) hposlt, hgetD, heqI]
                  rfl
                refine ⟨false, .full cs nf, heval, hwf, fun _ => rfl, ?_, fun h => h, ?_⟩
                · rw [hfindn]
                  exact hiffI
                · intro ks hks
                  by_cases hkr : ks = kn.drop pos
                  · rw [if_pos hkr, hkr, hfindn]
                    exact hiffI.mp rfl
                  · rw [if_neg hkr]
            | true =>
                have heval : t.insertWalk dec fuel (.full cs nf) kn pos (.valuen vd) =
                    .ok (true, .full (cs.set i nn) nf.dirtied) := by
                  rw [insertWalk_full t dec fuel cs nf (.valuen vd) hposlt, hgetD, heqI]
                  rfl
                refine ⟨true, _, heval, ?_, ?_, ?_, ?_, ?_⟩
                · refine wfFull_of_slots _ (by rw [List.length_set]; exact hlen17) ?_ ?_
                  · intro j hj hj16
                    by_cases hji : j = i
                    · subst hji
                      rw [getD_set_self (by omega) nn]
                      exact hwfI
                    · rw [getD_set_ne (fun h => hji h.symm) nn Node.nil]
                      exact wfFull_slot hwf hj hj16
                  · rw [getD_set_ne (fun h => h16 h) nn Node.nil]
                    exact wfFull_slot16 hwf
                · intro h
                  exact Bool.noConfusion h
                · constructor
                  · intro h
                    exact Bool.noConfusion h
                  · intro h
                    rw [hfindn] at h
                    exact Bool.noConfusion (hiffI.mpr h)
                · intro _
                  rfl
                · intro ks hks
                  obtain ⟨j, ks2, rfl⟩ : ∃ j ks2, ks = j :: ks2 := by
                    cases ks with
                    | nil => exact absurd rfl (good_ne_nil hks)
                    | cons j ks2 => exact ⟨j, ks2, rfl⟩
                  rw [find_full_cons]
                  by_cases hji : j = i
                  · rw [hji] at hks ⊢
                    rw [getD_set_self (by omega) nn]
                    have hks2good : goodNibsB ks2 = true := good_cons_tail hi16 hks
                    rw [hexI ks2 hks2good]
                    have hiff4 : i :: ks2 = kn.drop pos ↔ ks2 = kn.drop (pos + 1) := by
                      rw [hrem, hdrop]
                      constructor
                      · intro h
                        injection h
                      · intro h
                        rw [h]
                    by_cases hkr : ks2 = kn.drop (pos + 1)
                    · rw [if_pos hkr, if_pos (hiff4.mpr hkr)]
                    · rw [if_neg hkr, if_neg (fun hc => hkr (hiff4.mp hc)),
                        find_full_cons]
                  · rw [getD_set_ne (fun h => hji h.symm) nn Node.nil]
                    rw [if_neg (by rw [hrem]; intro h; injection h with h1 _; exact hji h1)]
                    rw [find_full_cons]

theorem isNull_eq_nil {n : Node} (h : n.isNull = true) : n = Node.nil := by
  cases n with
  | nil => rfl
  | hashn d => exact Bool.noConfusion h
  | short a b c => exact Bool.noConfusion h
  | full a b => exact Bool.noConfusion h
  | valuen d => exact Bool.noConfusion h

/-- Post-recursion handling of the FULLNODE case of _remove: after the found
child update the 17 slots are scanned; exactly one remaining non-Null slot
collapses the branch into a Short (resolving the child through resolve,
merging when that child is itself a Short), otherwise the dirty clone is
returned.  In every outcome the result is well formed, non-Null and denotes
the old map with the removed key taken out. -/
theorem removeWalk_full_post (t : Trie) (dec : List Nat → Node) (fuel : Nat)
    (cs : List Node) (nf : NodeFlags) (kn : List Nat) (pos : Nat)
    (i : Nat) (rest : List Nat) (nn : Node)
    (hwf : wfB (.full cs nf) = true)
    (hpos : pos ≤ kn.length)
    (hrem : kn.drop pos = i :: rest)
    (hgood : goodNibsB (kn.drop pos) = true)
    (hrec : t.removeWalk dec fuel (cs.getD i Node.nil) kn (pos + 1) = .ok (true, nn))
    (hwfnn : wfB nn = true)
    (hnn16 : i = 16 → nn = Node.nil)
    (hexIlt : i < 16 → ∀ ks2, goodNibsB ks2 = true →
      find nn ks2 = if ks2 = rest then none else find (cs.getD i Node.nil) ks2) :
    ∃ n', t.removeWalk dec fuel (.full cs nf) kn pos = .ok (true, n') ∧
      wfB n' = true ∧ n'.isNull = false ∧
      (∀ ks, goodNibsB ks = true →
        find n' ks = if ks = kn.drop pos then none else find (.full cs nf) ks) := by
  obtain ⟨hgetD, hdrop⟩ := drop_eq_cons_getD hrem
  have hgc : goodNibsB (i :: rest) = true := by
    rw [← hrem]
    exact hgood
  have hile : i ≤ 16 := good_head_le16 hgc
  have hlen17 := wfFull_len hwf
  have hlen' : (cs.set i nn).length = 17 := by
    rw [List.length_set]
    exact hlen17
  have hslotI : (cs.set i nn).getD i Node.nil = nn := getD_set_self (by omega) nn
  have hslotO : ∀ j, j ≠ i → (cs.set i nn).getD j Node.nil = cs.getD j Node.nil :=
    fun j hj => getD_set_ne (fun h => hj h.symm) nn Node.nil
  have hwf' : ∀ f2 : NodeFlags, wfB (.full (cs.set i nn) f2) = true := by
    intro f2
    refine wfFull_of_slots _ hlen' ?_ ?_
    · intro j hj hj16
      by_cases hji : j = i
      · rw [hji, hslotI]
        exact hwfnn
      · rw [hslotO j hji]
        exact wfFull_slot hwf hj hj16
    · by_cases hi16 : i = 16
      · rw [← hi16, hslotI, hnn16 hi16]
        rfl
      · rw [hslotO 16 (fun h => hi16 h.symm)]
        exact wfFull_slot16 hwf
  have heval0 : t.removeWalk dec fuel (.full cs nf) kn pos =
      (if 0 ≤ scanIndex (cs.set i nn) then
        if scanIndex (cs.set i nn) ≠ 16 then
          match t.resolve dec
              ((cs.set i nn).getD (scanIndex (cs.set i nn)).toNat Node.nil) kn
              (scanIndex (cs.set i nn)).toNat with
          | .error e => .error e
          | .ok child =>
              match child with
              | .short ck cv _ =>
                  .ok (true, t.shortNode ((scanIndex (cs.set i nn)).toNat :: ck) cv)
              | _ =>
                  .ok (true, t.shortNode [(scanIndex (cs.set i nn)).toNat]
                    ((cs.set i nn).getD (scanIndex (cs.set i nn)).toNat Node.nil))
        else .ok (true, t.shortNode [16] ((cs.set i nn).getD 16 Node.nil))
      else .ok (true, .full (cs.set i nn) nf.dirtied)) := by
    rw [removeWalk_full t dec fuel cs nf hpos, hgetD, hrec]
    rfl
  by_cases h0 : 0 ≤ scanIndex (cs.set i nn)
  · have hcast : scanIndex (cs.set i nn) = ((scanIndex (cs.set i nn)).toNat : Int) := by
      omega
    obtain ⟨hi0lt, hi0nn, hallnull⟩ := scanIndex_eq_cast hcast
    have hnullslot : ∀ j, j < 17 → j ≠ (scanIndex (cs.set i nn)).toNat →
        (cs.set i nn).getD j Node.nil = Node.nil :=
      fun j h1 h2 => isNull_eq_nil (hallnull j h1 h2)
    by_cases h16idx : scanIndex (cs.set i nn) ≠ 16
    · have hi016 : (scanIndex (cs.set i nn)).toNat ≠ 16 := by omega
      have hi0lt16 : (scanIndex (cs.set i nn)).toNat < 16 := by omega
      set i0 := (scanIndex (cs.set i nn)).toNat with hi0def
      have hwfc0 : wfB ((cs.set i nn).getD i0 Node.nil) = true :=
        wfFull_slot (hwf' nf) hi0lt hi016
      have hcont : ∀ j ks2, goodNibsB (j :: ks2) = true →
          (if j = i0 then find ((cs.set i nn).getD i0 Node.nil) ks2 else none) =
          if (j :: ks2) = kn.drop pos then none
          else find (.full cs nf) (j :: ks2) := by
        intro j ks2 hks
        rw [hrem, find_full_cons]
        by_cases hji0 : j = i0
        · rw [if_pos hji0]
          by_cases hii0 : i = i0
          · rw [← hii0, hslotI]
            have hilt : i < 16 := by omega
            have hks2good : goodNibsB ks2 = true := by
              rw [hji0, ← hii0] at hks
              exact good_cons_tail hilt hks
            rw [hexIlt hilt ks2 hks2good]
            by_cases hkr : ks2 = rest
            · rw [if_pos hkr, if_pos (by rw [hji0, ← hii0, hkr])]
            · rw [if_neg hkr,
                if_neg (by intro h; injection h with h1 h2; exact hkr h2), hji0, ← hii0]
          · rw [hslotO i0 (fun h => hii0 h.symm),
              if_neg (by intro h; injection h with h1 h2; rw [hji0] at h1; exact hii0 h1.symm),
              hji0]
        · rw [if_neg hji0]
          by_cases hkr : j :: ks2 = i :: rest
          · rw [if_pos hkr]
          · rw [if_neg hkr]
            by_cases hji : j = i
            · have hii0 : i ≠ i0 := by
                rw [← hji]
                exact hji0
              have hnnnil2 : nn = Node.nil := by
                have h5 := isNull_eq_nil (hallnull i (by omega) hii0)
                rw [hslotI] at h5
                exact h5
              by_cases hi16b : i = 16
              · exfalso
                refine hkr ?_
                have hks2 : ks2 = [] := by
                  rw [hji, hi16b] at hks
                  exact good_head16 hks
                have hrest : rest = [] := by
                  rw [hi16b] at hgc
                  exact good_head16 hgc
                rw [hji, hks2, hrest]
              · have hilt : i < 16 := by omega
                have hks2good : goodNibsB ks2 = true := by
                  rw [hji] at hks
                  exact good_cons_tail hilt hks
                have h4 := hexIlt hilt ks2 hks2good
                have hks2ne : ks2 ≠ rest := by
                  intro h
                  exact hkr (by rw [hji, h])
                rw [hnnnil2, find_nil, if_neg hks2ne] at h4
                rw [hji]
                exact h4
            · have hjlt : j ≤ 16 := good_head_le16 hks
              have h5 := hnullslot j (by omega) hji0
              rw [hslotO j hji] at h5
              rw [h5, find_nil]
      cases hc0 : (cs.set i nn).getD i0 Node.nil with
      | nil =>
          rw [hc0] at hi0nn
          exact Bool.noConfusion (show true = false from hi0nn)
      | hashn d2 =>
          rw [hc0, wfB] at hwfc0
          exact Bool.noConfusion (show false = true from hwfc0)
      | valuen d2 =>
          rw [hc0, wfB] at hwfc0
          exact Bool.noConfusion (show false = true from hwfc0)
      | short ck cv cf2 =>
          rw [hc0] at hcont hwfc0
          refine ⟨t.shortNode (i0 :: ck) cv, ?_, ?_, by rfl, ?_⟩
          · rw [heval0, if_pos h0, if_pos h16idx, hc0]
            rfl
          · rcases wf_short_cases hwfc0 with ⟨d, hcv, hgk⟩ | ⟨cs2, f2, hcv, hne, hlt, hwfv⟩
            · rw [hcv]
              simp only [Trie.shortNode]
              exact wf_short_leaf d _ (good_cons_of hi0lt16 hgk)
            · rw [hcv]
              simp only [Trie.shortNode]
              rw [hcv] at hwfv
              refine wf_short_ext _ (by simp) ?_ hwfv
              intro x hx
              rcases List.mem_cons.mp hx with rfl | hx2
              · exact hi0lt16
              · exact hlt x hx2
          · intro ks hks
            obtain ⟨j, ks2, rfl⟩ : ∃ j ks2, ks = j :: ks2 := by
              cases ks with
              | nil => exact absurd rfl (good_ne_nil hks)
              | cons j ks2 => exact ⟨j, ks2, rfl⟩
            have hsh : find (t.shortNode (i0 :: ck) cv) (j :: ks2) =
                if j = i0 then find (.short ck cv cf2) ks2 else none := by
              simp only [Trie.shortNode]
              rw [find_short', find_short']
              by_cases hji0 : j = i0
              · rw [if_pos hji0]
                by_cases hcp : ck <+: ks2
                · rw [if_pos (List.cons_prefix_cons.mpr ⟨hji0.symm, hcp⟩),
                    if_pos hcp, List.length_cons, List.drop_succ_cons]
                · rw [if_neg (by intro h; exact hcp (List.cons_prefix_cons.mp h).2),
                    if_neg hcp]
              · rw [if_neg (by intro h; exact hji0 (List.cons_prefix_cons.mp h).1.symm),
                  if_neg hji0]
            rw [hsh]
            exact hcont j ks2 hks
      | full c2 f2 =>
          rw [hc0] at hcont hwfc0
          refine ⟨t.shortNode [i0] (.full c2 f2), ?_, ?_, by rfl, ?_⟩
          · rw [heval0, if_pos h0, if_pos h16idx, hc0]
            rfl
          · simp only [Trie.shortNode]
            refine wf_short_ext _ (by simp) ?_ hwfc0
            intro x hx
            rcases List.mem_cons.mp hx with rfl | hx2
            · exact hi0lt16
            · simp at hx2
          · intro ks hks
            obtain ⟨j, ks2, rfl⟩ : ∃ j ks2, ks = j :: ks2 := by
              cases ks with
              | nil => exact absurd rfl (good_ne_nil hks)
              | cons j ks2 => exact ⟨j, ks2, rfl⟩
            have hsh : find (t.shortNode [i0] (.full c2 f2)) (j :: ks2) =
                if j = i0 then find (.full c2 f2) ks2 else none := by
              simp only [Trie.shortNode]
              rw [find_short']
              by_cases hji0 : j = i0
              · rw [if_pos (List.cons_prefix_cons.mpr ⟨hji0.symm, List.nil_prefix⟩),
                  if_pos hji0, List.length_cons, List.length_nil, List.drop_succ_cons,
                  List.drop_zero]
              · rw [if_neg (by intro h; exact hji0 (List.cons_prefix_cons.mp h).1.symm),
                  if_neg hji0]
            rw [hsh]
            exact hcont j ks2 hks
    · push_neg at h16idx
      have hi0eq : (scanIndex (cs.set i nn)).toNat = 16 := by omega
      have hine : i ≠ 16 := by
        intro hi16
        have h2 := hi0nn
        rw [hi0eq, ← hi16, hslotI, hnn16 hi16] at h2
        exact Bool.noConfusion h2
      have hslot16v : ∃ d16, cs.getD 16 Node.nil = .valuen d16 := by
        have h2 := hi0nn
        rw [hi0eq, hslotO 16 (fun h => hine h.symm)] at h2
        have h3 := wfFull_slot16 hwf
        cases hc : cs.getD 16 Node.nil with
        | valuen d16 => exact ⟨d16, rfl⟩
        | nil =>
            rw [hc] at h2
            exact Bool.noConfusion h2
        | hashn d2 =>
            rw [hc] at h3
            exact Bool.noConfusion h3
        | short a b c =>
            rw [hc] at h3
            exact Bool.noConfusion h3
        | full a b =>
            rw [hc] at h3
            exact Bool.noConfusion h3
      obtain ⟨d16, hd16⟩ := hslot16v
      have hilt16 : i < 16 := by omega
      have hnnnil : nn = Node.nil := by
        have h5 := isNull_eq_nil (hallnull i (by omega) (by omega))
        rw [hslotI] at h5
        exact h5
      refine ⟨t.shortNode [16] ((cs.set i nn).getD 16 Node.nil),
        by rw [heval0, if_pos h0, if_neg (by omega)], ?_, ?_, ?_⟩
      · rw [hslotO 16 (fun h => hine h.symm), hd16]
        simp only [Trie.shortNode]
        exact wf_short_leaf d16 _ good_single
      · rfl
      · intro ks hks
        rw [hslotO 16 (fun h => hine h.symm), hd16]
        obtain ⟨j, ks2, rfl⟩ : ∃ j ks2, ks = j :: ks2 := by
          cases ks with
          | nil => exact absurd rfl (good_ne_nil hks)
          | cons j ks2 => exact ⟨j, ks2, rfl⟩
        simp only [Trie.shortNode]
        rw [find_short', hrem, find_full_cons]
        by_cases hj16 : j = 16
        · subst hj16
          have hks2 : ks2 = [] := good_head16 hks
          subst hks2
          rw [if_pos (List.prefix_refl _), find_valuen,
            if_neg (by intro h; injection h with h1 _; exact hine h1.symm),
            hd16, find_valuen]
        · rw [if_neg (by intro h; rcases List.cons_prefix_cons.mp h with ⟨h1, _⟩; exact hj16 h1.symm)]
          by_cases hji : j = i
          · rw [hji]
            by_cases hkr : i :: ks2 = i :: rest
            · rw [if_pos hkr]
            · rw [if_neg hkr]
              have hks2ne : ks2 ≠ rest := by
                intro h
                rw [h] at hkr
                exact hkr rfl
              have hks2good : goodNibsB ks2 = true := by
                rw [hji] at hks
                exact good_cons_tail hilt16 hks
              have h4 := hexIlt hilt16 ks2 hks2good
              rw [hnnnil, find_nil, if_neg hks2ne] at h4
              exact h4
          · rw [if_neg (by intro h; injection h with h1 _; exact hji h1)]
            have hjnull : cs.getD j Node.nil = Node.nil := by
              have h5 := hnullslot j (by have := good_head_le16 hks; omega)
                (by omega)
              rw [hslotO j hji] at h5
              exact h5
            rw [hjnull, find_nil]
  · refine ⟨.full (cs.set i nn) nf.dirtied,
      by rw [heval0, if_neg h0], hwf' _, by rfl, ?_⟩
    intro ks hks
    obtain ⟨j, ks2, rfl⟩ : ∃ j ks2, ks = j :: ks2 := by
      cases ks with
      | nil => exact absurd rfl (good_ne_nil hks)
      | cons j ks2 => exact ⟨j, ks2, rfl⟩
    rw [find_full_cons, hrem, find_full_cons]
    by_cases hji : j = i
    · subst hji
      rw [hslotI]
      by_cases hj16 : j = 16
      · subst hj16
        have hks2 : ks2 = [] := good_head16 hks
        have hrest : rest = [] := good_head16 hgc
        subst hks2
        subst hrest
        rw [hnn16 rfl, find_nil, if_pos rfl]
      · have hjlt : j < 16 := by omega
        have hks2good : goodNibsB ks2 = true := good_cons_tail hjlt hks
        rw [hexIlt hjlt ks2 hks2good]
        by_cases hkr : ks2 = rest
        · rw [if_pos hkr, if_pos (by rw [hkr])]
        · rw [if_neg hkr, if_neg (by intro h; injection h with _ h2; exact hkr h2)]
    · rw [hslotO j hji]
      rw [if_neg (by intro h; injection h with h1 _; exact hji h1)]

/-- Main correctness of _remove on a well-formed Hash-free tree: it succeeds,
returns a well-formed tree, reports no change exactly when the key is
absent, leaves the tree untouched in that case, never collapses a Full
node to Null, and its result denotes the old map with the key removed. -/
theorem removeWalk_main (t : Trie) (dec : List Nat → Node) :
    ∀ (s : Nat) (n : Node), sizeOf n ≤ s →
      ∀ (fuel : Nat) (kn : List Nat) (pos : Nat),
      wfB n = true → pos ≤ kn.length → goodNibsB (kn.drop pos) = true →
      ∃ d n', t.removeWalk dec fuel n kn pos = .ok (d, n') ∧
        wfB n' = true ∧
        (d = false → n' = n) ∧
        (d = false ↔ find n (kn.drop pos) = none) ∧
        (n.isFull = true → d = true → n'.isNull = false) ∧
        (∀ ks, goodNibsB ks = true →
          find n' ks = if ks = kn.drop pos then none else find n ks) := by
  intro s
  induction s with
  | zero =>
      intro n hs
      have := one_le_sizeOf_node n
      omega
  | succ s ih =>
      intro n hs fuel kn pos hwf hpos hgood
      have hposlt : pos < kn.length := by
        by_contra hc
        push_neg at hc
        exact good_ne_nil hgood (List.drop_eq_nil_of_le hc)
      cases n with
      | valuen d =>
          rw [wfB] at hwf
          exact Bool.noConfusion hwf
      | hashn dg =>
          rw [wfB] at hwf
          exact Bool.noConfusion hwf
      | nil =>
          refine ⟨false, .nil, removeWalk_nil t dec fuel hpos, by rw [wfB],
            fun _ => rfl, ⟨fun _ => find_nil _, fun _ => rfl⟩,
            fun h => Bool.noConfusion h, ?_⟩
          intro ks hks
          rw [find_nil]
          by_cases hkr : ks = kn.drop pos
          · rw [if_pos hkr]
          · rw [if_neg hkr]
      | short nk nv nf =>
          have hmldef : prefixLen kn nk pos = commonLen (kn.drop pos) nk := rfl
          by_cases hml1 : prefixLen kn nk pos < nk.length
          · have hnp : ¬ nk <+: kn.drop pos := by
              intro hc
              rw [hmldef, commonLen_eq_right_of_prefix hc] at hml1
              omega
            have heval : t.removeWalk dec fuel (.short nk nv nf) kn pos =
                .ok (false, .short nk nv nf) := by
              rw [removeWalk_short t dec fuel nk nv nf hpos, if_pos hml1]
            refine ⟨false, .short nk nv nf, heval, hwf, fun _ => rfl,
              ⟨fun _ => by rw [find_short', if_neg hnp], fun _ => rfl⟩,
              fun h => Bool.noConfusion h, ?_⟩
            intro ks hks
            by_cases hkr : ks = kn.drop pos
            · rw [if_pos hkr, hkr, find_short', if_neg hnp]
            · rw [if_neg hkr]
          · have hml : prefixLen kn nk pos = nk.length := by
              have h2 : commonLen (kn.drop pos) nk ≤ nk.length := commonLen_le_right _ _
              rw [hmldef]
              rw [hmldef] at hml1
              omega
            have hpre : nk <+: kn.drop pos := by
              refine prefix_of_commonLen_eq_right ?_
              rw [← hmldef]
              exact hml
            rcases wf_short_cases hwf with ⟨dL, hnv, hgnk⟩ | ⟨csE, fE, hnv, hneE, hltE, hwfE⟩
            · subst hnv
              have heq : nk = kn.drop pos := good_prefix_eq hgnk hgood hpre
              have hcond2 : prefixLen kn nk pos = kn.length - pos := by
                have h2 := congrArg List.length heq
                rw [List.length_drop] at h2
                omega
              have heval : t.removeWalk dec fuel (.short nk (.valuen dL) nf) kn pos =
                  .ok (true, .nil) := by
                rw [removeWalk_short t dec fuel nk (.valuen dL) nf hpos, if_neg hml1,
                  if_pos hcond2]
              refine ⟨true, .nil, heval, by rw [wfB], fun h => Bool.noConfusion h,
                ?_, fun h => Bool.noConfusion h, ?_⟩
              · constructor
                · intro h
                  exact Bool.noConfusion h
                · intro h
                  rw [find_short', if_pos hpre, find_valuen] at h
                  exact Option.noConfusion h
              · intro ks hks
                rw [find_nil]
                by_cases hkr : ks = kn.drop pos
                · rw [if_pos hkr]
                · rw [if_neg hkr, find_short', if_neg ?_]
                  intro hc
                  refine hkr ?_
                  rw [← good_prefix_eq hgnk hks hc]
                  exact heq
            · subst hnv
              have hneq : nk ≠ kn.drop pos := by
                intro he
                obtain ⟨body, hb, _⟩ := good_iff.mp hgood
                have h16m : (16 : Nat) ∈ kn.drop pos := by
                  rw [hb]
                  simp
                rw [← he] at h16m
                exact absurd (hltE 16 h16m) (by omega)
              have hlenlt : nk.length < (kn.drop pos).length := by
                rcases Nat.lt_or_ge nk.length (kn.drop pos).length with hq | hq
                · exact hq
                · exact absurd (hpre.eq_of_length (by
                    have := hpre.length_le
                    omega)) hneq
              rw [List.length_drop] at hlenlt
              have hcond2 : ¬ prefixLen kn nk pos = kn.length - pos := by omega
              have hdd2 : (kn.drop pos).drop nk.length = kn.drop (pos + nk.length) :=
                List.drop_drop _ _ _
              have hgood2 : goodNibsB (kn.drop (pos + nk.length)) = true := by
                have h3 := good_drop_chunk hgood hpre hltE
                rwa [hdd2] at h3
              obtain ⟨d, nn, heqI, hwfI, hfalseI, hiffI, hnullI, hexI⟩ :=
                ih (.full csE fE)
                  (by have := sizeOf_short_value_lt nk (.full csE fE) nf; omega)
                  fuel kn (pos + nk.length) hwfE (by omega) hgood2
              have hfindn : find (.short nk (.full csE fE) nf) (kn.drop pos) =
                  find (.full csE fE) (kn.drop (pos + nk.length)) := by
                rw [find_short', if_pos hpre, hdd2]
              cases d with
              | false =>
                  have heval : t.removeWalk dec fuel (.short nk (.full csE fE) nf) kn pos =
                      .ok (false, .short nk (.full csE fE) nf) := by
                    rw [removeWalk_short t dec fuel nk (.full csE fE) nf hpos,
                      if_neg hml1, if_neg hcond2, heqI]
                    rfl
                  refine ⟨false, .short nk (.full csE fE) nf, heval, hwf, fun _ => rfl,
                    ?_, fun h => Bool.noConfusion h, ?_⟩
                  · rw [hfindn]
                    exact hiffI
                  · intro ks hks
                    by_cases hkr : ks = kn.drop pos
                    · rw [if_pos hkr, hkr, hfindn]
                      exact hiffI.mp rfl
                    · rw [if_neg hkr]
              | true =>
                  have hnnull : nn.isNull = false := hnullI rfl rfl
                  have hiff3 : ∀ ks : List Nat, nk <+: ks →
                      (ks = kn.drop pos ↔
                        ks.drop nk.length = kn.drop (pos + nk.length)) := by
                    intro ks hpk
                    constructor
                    · intro h
                      rw [h, hdd2]
                    · intro h
                      rw [prefix_decomp hpk, h, ← hdd2, ← prefix_decomp hpre]
                  cases nn with
                  | nil => exact Bool.noConfusion hnnull
                  | hashn d2 =>
                      rw [wfB] at hwfI
                      exact Bool.noConfusion hwfI
                  | valuen d2 =>
                      rw [wfB] at hwfI
                      exact Bool.noConfusion hwfI
                  | short nk2 nv2 f2 =>
                      have heval : t.removeWalk dec fuel (.short nk (.full csE fE) nf)
                          kn pos = .ok (true, t.shortNode (nk ++ nk2) nv2) := by
                        rw [removeWalk_short t dec fuel nk (.full csE fE) nf hpos,
                          if_neg hml1, if_neg hcond2, heqI]
                        rfl
                      refine ⟨true, t.shortNode (nk ++ nk2) nv2, heval, ?_,
                        fun h => Bool.noConfusion h, ?_, fun h => Bool.noConfusion h, ?_⟩
                      · rcases wf_short_cases hwfI with ⟨d2, hnv2, hgk2⟩ |
                          ⟨cs3, f3, hnv2, hne2, hlt2, hwf2⟩
                        · rw [hnv2]
                          simp only [Trie.shortNode]
                          exact wf_short_leaf d2 _ (good_append hltE hgk2)
                        · rw [hnv2]
                          simp only [Trie.shortNode]
                          rw [hnv2] at hwf2
                          refine wf_short_ext _ ?_ ?_ hwf2
                          · intro h
                            exact hneE (List.append_eq_nil.mp h).1
                          · intro x hx
                            rcases List.mem_append.mp hx with hx1 | hx2
                            · exact hltE x hx1
                            · exact hlt2 x hx2
                      · constructor
                        · intro h
                          exact Bool.noConfusion h
                        · intro h
                          rw [hfindn] at h
                          exact Bool.noConfusion (hiffI.mpr h)
                      · intro ks hks
                        simp only [Trie.shortNode]
                        rw [find_short']
                        by_cases hpk : nk <+: ks
                        · have hksg : goodNibsB (ks.drop nk.length) = true :=
                            good_drop_chunk hks hpk hltE
                          have hlhs : (if nk ++ nk2 <+: ks then
                              find nv2 (ks.drop (nk ++ nk2).length) else none) =
                              find (.short nk2 nv2 f2) (ks.drop nk.length) := by
                            rw [find_short']
                            by_cases hq : nk2 <+: ks.drop nk.length
                            · rw [if_pos (append_prefix_iff.mpr ⟨hpk, hq⟩), if_pos hq,
                                List.length_append, ← List.drop_drop]
                            · rw [if_neg (fun hc => hq (append_prefix_iff.mp hc).2),
                                if_neg hq]
                          rw [hlhs, hexI _ hksg]
                          by_cases hkr : ks = kn.drop pos
                          · rw [if_pos ((hiff3 ks hpk).mp hkr), if_pos hkr]
                          · rw [if_neg (fun hc => hkr ((hiff3 ks hpk).mpr hc)),
                              if_neg hkr, find_short', if_pos hpk]
                        · have hkr : ks ≠ kn.drop pos := by
                            intro h
                            rw [h] at hpk
                            exact hpk hpre
                          rw [if_neg (fun hc => hpk (append_prefix_iff.mp hc).1),
                            if_neg hkr, find_short', if_neg hpk]
                  | full cs2 f2 =>
                      have heval : t.removeWalk dec fuel (.short nk (.full csE fE) nf)
                          kn pos = .ok (true, t.shortNode nk (.full cs2 f2)) := by
                        rw [removeWalk_short t dec fuel nk (.full csE fE) nf hpos,
                          if_neg hml1, if_neg hcond2, heqI]
                        rfl
                      refine ⟨true, t.shortNode nk (.full cs2 f2), heval, ?_,
                        fun h => Bool.noConfusion h, ?_, fun h => Bool.noConfusion h, ?_⟩
                      · simp only [Trie.shortNode]
                        exact wf_short_ext _ hneE hltE hwfI
                      · constructor
                        · intro h
                          exact Bool.noConfusion h
                        · intro h
                          rw [hfindn] at h
                          exact Bool.noConfusion (hiffI.mpr h)
                      · intro ks hks
                        simp only [Trie.shortNode]
                        rw [find_short']
                        by_cases hpk : nk <+: ks
                        · have hksg : goodNibsB (ks.drop nk.length) = true :=
                            good_drop_chunk hks hpk hltE
                          rw [if_pos hpk, hexI _ hksg]
                          by_cases hkr : ks = kn.drop pos
                          · rw [if_pos ((hiff3 ks hpk).mp hkr), if_pos hkr]
                          · rw [if_neg (fun hc => hkr ((hiff3 ks hpk).mpr hc)),
                              if_neg hkr, find_short', if_pos hpk]
                        · have hkr : ks ≠ kn.drop pos := by
                            intro h
                            rw [h] at hpk
                            exact hpk hpre
                          rw [if_neg hpk, if_neg hkr, find_short', if_neg hpk]
      | full cs nf =>
          obtain ⟨i, rest, hrem⟩ : ∃ i rest, kn.drop pos = i :: rest := by
            cases hd : kn.drop pos with
            | nil => exact absurd hd (good_ne_nil hgood)
            | cons i rest => exact ⟨i, rest, rfl⟩
          obtain ⟨hgetD, hdrop⟩ := drop_eq_cons_getD hrem
          have hgc : goodNibsB (i :: rest) = true := by
            rw [← hrem]
            exact hgood
          by_cases h16 : i = 16
          · subst h16
            have hrest : rest = [] := good_head16 hgc
            subst hrest
            have h5 := wfFull_slot16 hwf
            cases hslot : cs.getD 16 Node.nil with
            | nil =>
                have heval : t.removeWalk dec fuel (.full cs nf) kn pos =
                    .ok (false, .full cs nf) := by
                  rw [removeWalk_full t dec fuel cs nf hpos, hgetD, hslot,
                    removeWalk_nil t dec fuel (by omega)]
                  rfl
                refine ⟨false, .full cs nf, heval, hwf, fun _ => rfl,
                  ⟨fun _ => by rw [hrem, find_full_cons, hslot, find_nil],
                    fun _ => rfl⟩,
                  fun _ h => Bool.noConfusion h, ?_⟩
                intro ks hks
                by_cases hkr : ks = kn.drop pos
                · rw [if_pos hkr, hkr, hrem, find_full_cons, hslot, find_nil]
                · rw [if_neg hkr]
            | valuen dv =>
                obtain ⟨n', heval0, hwf', hnnull, hex'⟩ :=
                  removeWalk_full_post t dec fuel cs nf kn pos 16 [] Node.nil hwf hpos
                    hrem hgood
                    (by rw [hslot]
                        exact removeWalk_valuen t dec fuel dv (by omega))
                    (by rw [wfB]) (fun _ => rfl) (fun h => absurd h (by omega))
                refine ⟨true, n', heval0, hwf', fun h => Bool.noConfusion h, ?_,
                  fun _ _ => hnnull, hex'⟩
                constructor
                · intro h
                  exact Bool.noConfusion h
                · intro h
                  rw [hrem, find_full_cons, hslot, find_valuen] at h
                  exact Option.noConfusion h
            | hashn d2 =>
                rw [hslot] at h5
                simp [Node.isNull, Node.isValue] at h5
            | short a b c =>
                rw [hslot] at h5
                simp [Node.isNull, Node.isValue] at h5
            | full a b =>
                rw [hslot] at h5
                simp [Node.isNull, Node.isValue] at h5
          · have hi16 : i < 16 := by
              have := good_head_le16 hgc
              omega
            have hrgood : goodNibsB rest = true := good_cons_tail hi16 hgc
            have hcwf := wfFull_slot hwf (by omega) h16
            obtain ⟨d, nn, heqI, hwfI, hfalseI, hiffI, hnullI, hexI⟩ :=
              ih (cs.getD i Node.nil)
                (by have := sizeOf_getD_lt cs nf i; omega)
                fuel kn (pos + 1) hcwf (by omega) (by rw [hdrop]; exact hrgood)
            have hfindn : find (.full cs nf) (kn.drop pos) =
                find (cs.getD i Node.nil) (kn.drop (pos + 1)) := by
              rw [hrem, find_full_cons, hdrop]
            cases d with
            | false =>
                have heval : t.removeWalk dec fuel (.full cs nf) kn pos =
                    .ok (false, .full cs nf) := by
                  rw [removeWalk_full t dec fuel cs nf hpos, hgetD, heqI]
                  rfl
                refine ⟨false, .full cs nf, heval, hwf, fun _ => rfl, ?_,
                  fun _ h => Bool.noConfusion h, ?_⟩
                · rw [hfindn]
                  exact hiffI
                · intro ks hks
                  by_cases hkr : ks = kn.drop pos
                  · rw [if_pos hkr, hkr, hfindn]
                    exact hiffI.mp rfl
                  · rw [if_neg hkr]
            | true =>
                obtain ⟨n', heval0, hwf', hnnull, hex'⟩ :=
                  removeWalk_full_post t dec fuel cs nf kn pos i rest nn hwf hpos
                    hrem hgood heqI hwfI (fun h => absurd h h16)
                    (fun _ ks2 hks2 => by rw [← hdrop]; exact hexI ks2 hks2)
                refine ⟨true, n', heval0, hwf', fun h => Bool.noConfusion h, ?_,
                  fun _ _ => hnnull, hex'⟩
                constructor
                · intro h
                  exact Bool.noConfusion h
                · intro h
                  rw [hfindn] at h
                  exact Bool.noConfusion (hiffI.mpr h)

theorem bytes_of_all {k : List Nat} (h : (k.all fun b => decide (b < 256)) = true) :
    ∀ b ∈ k, b < 256 :=
  fun b hb => of_decide_eq_true (List.all_eq_true.mp h b hb)

theorem lookup_cons (a pk pv : List Nat) (rest : List (List Nat × List Nat)) :
    ((pk, pv) :: rest).lookup a = if a = pk then some pv else rest.lookup a := by
  by_cases h : a = pk
  · rw [if_pos h]
    subst h
    simp [List.lookup]
  · rw [if_neg h]
    simp [List.lookup, beq_eq_false_iff_ne.mpr h]

theorem lookup_filter_ne (k k2 : List Nat) :
    ∀ m : List (List Nat × List Nat),
      (m.filter (fun p => !(p.1 == k))).lookup k2 =
        if k2 = k then none else m.lookup k2 := by
  intro m
  induction m with
  | nil =>
      by_cases h : k2 = k
      · rw [if_pos h]
        rfl
      · rw [if_neg h]
        rfl
  | cons p rest ih =>
      obtain ⟨pk, pv⟩ := p
      rw [List.filter_cons]
      by_cases hpk : pk = k
      · rw [if_neg (by simp [hpk]), ih, lookup_cons]
        by_cases h2 : k2 = k
        · rw [if_pos h2, if_pos h2]
        · rw [if_neg h2, if_neg h2, if_neg (by rw [hpk]; exact h2)]
      · rw [if_pos (by simp [hpk]), lookup_cons, lookup_cons]
        by_cases h3 : k2 = pk
        · rw [if_pos h3, if_neg (by rw [h3]; exact hpk), if_pos h3]
        · rw [if_neg h3, if_neg h3, ih]

/-- The engine agrees with the association-list reference model along any
sequence of byte-keyed operations: starting from a well-formed Hash-free
root whose denotation is the model lookup, every operation succeeds and
preserves that agreement. -/
theorem applyOps_model (dec : List Nat → Node) (fuel : Nat) :
    ∀ (ops : List Op) (t : Trie) (m : List (List Nat × List Nat)),
      (ops.all opBytesB) = true →
      wfB t.root = true →
      (∀ k, (k.all fun b => decide (b < 256)) = true →
        find t.root (toNibbles k) = m.lookup k) →
      ∃ t2, applyOps dec fuel t ops = .ok t2 ∧
        wfB t2.root = true ∧
        (∀ k, (k.all fun b => decide (b < 256)) = true →
          find t2.root (toNibbles k) = (ops.foldl modelApply m).lookup k) := by
  intro ops
  induction ops with
  | nil =>
      intro t m _ hwf hinv
      exact ⟨t, rfl, hwf, hinv⟩
  | cons op rest ih =>
      intro t m hall hwf hinv
      simp only [List.all_cons, Bool.and_eq_true] at hall
      obtain ⟨hop, hrest⟩ := hall
      cases op with
      | ins k v =>
          simp only [opBytesB] at hop
          have hgood : goodNibsB ((toNibbles k).drop 0) = true := by
            rw [List.drop_zero]
            exact toNibbles_good (bytes_of_all hop)
          obtain ⟨d, n', heval, hwf', hfalse, hiff, hfull, hex⟩ :=
            insertWalk_main t dec (sizeOf t.root) t.root le_rfl fuel (toNibbles k) 0 v
              hwf (Nat.zero_le _) hgood
          have hstep : t.applyOp dec fuel (.ins k v) = .ok { t with root := n' } := by
            show t.insertM dec fuel k v = _
            simp only [Trie.insertM]
            rw [heval]
          have hinv2 : ∀ k2, (k2.all fun b => decide (b < 256)) = true →
              find n' (toNibbles k2) = ((k, v) :: m).lookup k2 := by
            intro k2 hk2
            have hg2 : goodNibsB (toNibbles k2) = true :=
              toNibbles_good (bytes_of_all hk2)
            have h3 := hex (toNibbles k2) hg2
            rw [List.drop_zero] at h3
            rw [h3, lookup_cons]
            by_cases he : k2 = k
            · rw [if_pos (by rw [he]), if_pos he]
            · rw [if_neg (fun hc => he (toNibbles_inj hc)), if_neg he]
              exact hinv k2 hk2
          obtain ⟨t2, happ, hwf2, hinv3⟩ :=
            ih { t with root := n' } ((k, v) :: m) hrest hwf' hinv2
          refine ⟨t2, ?_, hwf2, ?_⟩
          · have h4 : applyOps dec fuel t (.ins k v :: rest) =
                applyOps dec fuel { t with root := n' } rest := by
              rw [applyOps, hstep]
            rw [h4]
            exact happ
          · intro k2 hk2
            rw [List.foldl_cons]
            exact hinv3 k2 hk2
      | del k =>
          simp only [opBytesB] at hop
          have hgood : goodNibsB ((toNibbles k).drop 0) = true := by
            rw [List.drop_zero]
            exact toNibbles_good (bytes_of_all hop)
          obtain ⟨d, n', heval, hwf', hfalse, hiff, hnull, hex⟩ :=
            removeWalk_main t dec (sizeOf t.root) t.root le_rfl fuel (toNibbles k) 0
              hwf (Nat.zero_le _) hgood
          have hstep : t.applyOp dec fuel (.del k) = .ok { t with root := n' } := by
            show t.removeM dec fuel k = _
            simp only [Trie.removeM]
            rw [heval]
          have hinv2 : ∀ k2, (k2.all fun b => decide (b < 256)) = true →
              find n' (toNibbles k2) =
                (m.filter (fun p => !(p.1 == k))).lookup k2 := by
            intro k2 hk2
            have hg2 : goodNibsB (toNibbles k2) = true :=
              toNibbles_good (bytes_of_all hk2)
            have h3 := hex (toNibbles k2) hg2
            rw [List.drop_zero] at h3
            rw [h3, lookup_filter_ne]
            by_cases he : k2 = k
            · rw [if_pos (by rw [he]), if_pos he]
            · rw [if_neg (fun hc => he (toNibbles_inj hc)), if_neg he]
              exact hinv k2 hk2
          obtain ⟨t2, happ, hwf2, hinv3⟩ :=
            ih { t with root := n' } (m.filter (fun p => !(p.1 == k))) hrest hwf' hinv2
          refine ⟨t2, ?_, hwf2, ?_⟩
          · have h4 : applyOps dec fuel t (.del k :: rest) =
                applyOps dec fuel { t with root := n' } rest := by
              rw [applyOps, hstep]
            rw [h4]
            exact happ
          · intro k2 hk2
            rw [List.foldl_cons]
            exact hinv3 k2 hk2

/-- C1: Map semantics.  For any sequence of insert and remove operations on
byte-string keys, run from a fresh trie with no store, every operation
succeeds, and get(k) afterwards returns exactly the association-list
reference lookup: the value of the last insert of k not followed by a
remove of k, and nothing when k was never inserted or was last removed. -/
theorem c1_map_semantics (dec : List Nat → Node) (fuel : Nat) (hashF : HashFn)
    (encode : Node → List Nat) (limit : Nat) (ops : List Op) (k : List Nat)
    (hops : (ops.all opBytesB) = true)
    (hk : (k.all fun b => decide (b < 256)) = true) :
    ∃ t2, applyOps dec fuel (Trie.new hashF encode none limit) ops = .ok t2 ∧
      t2.getM dec fuel k = .ok ((modelOf ops).lookup k, t2) := by
  obtain ⟨t2, happ, hwf2, hinv⟩ :=
    applyOps_model dec fuel ops (Trie.new hashF encode none limit) [] hops
      (by show wfB Node.nil = true; rw [wfB])
      (fun k2 _ => by show find Node.nil (toNibbles k2) = _; rw [find_nil]; rfl)
  refine ⟨t2, happ, ?_⟩
  have hgw := getWalk_find t2 dec (sizeOf t2.root) t2.root le_rfl fuel (toNibbles k) 0
    hwf2 (Nat.zero_le _)
    (by rw [List.drop_zero]; exact toNibbles_good (bytes_of_all hk))
  have hfind : find t2.root ((toNibbles k).drop 0) = (modelOf ops).lookup k := by
    rw [List.drop_zero]
    exact hinv k hk
  rw [hfind] at hgw
  simp only [Trie.getM]
  rw [hgw]
  rfl

/-- Witness for C1 at the concrete sequence insert(0x01, 0x02),
insert(0x01, 0x03), remove(0x01) and the key 0x01. -/
theorem c1_map_semantics_witness :
    (([Op.ins [1] [2], Op.ins [1] [3], Op.del [1]].all opBytesB) = true) ∧
    (([1].all fun b => decide (b < 256)) = true) ∧
    ∃ t2, applyOps (fun _ => Node.nil) 0
        (Trie.new ⟨1, fun _ => [0]⟩ (fun _ => []) none 4)
        [Op.ins [1] [2], Op.ins [1] [3], Op.del [1]] = .ok t2 ∧
      t2.getM (fun _ => Node.nil) 0 [1] =
        .ok ((modelOf [Op.ins [1] [2], Op.ins [1] [3], Op.del [1]]).lookup [1], t2) :=
  ⟨by decide, by decide,
    c1_map_semantics (fun _ => Node.nil) 0 ⟨1, fun _ => [0]⟩ (fun _ => []) 4
      [Op.ins [1] [2], Op.ins [1] [3], Op.del [1]] [1] (by decide) (by decide)⟩

/-- C2: When resolveHash misses a digest in the store, the operation does
NOT surface the four-field MissingNode error the specification describes:
the call site passes the options object into the constructor's first
(hash) parameter, so nodeHash stays undefined and building the message
throws a TypeError instead; no MissingNodeError ever escapes, and even the
constructor applied to the very options object of the call site fails the
same way. -/
theorem c2_resolve_missing_raises_typeerror (t : Trie) (dec : List Nat → Node)
    (db : Store) (dg key : List Nat) (pos : Nat)
    (hdb : t.db = some db) (habs : db.get dg = none) :
    t.resolveHash dec (.hashn dg) key pos = .error (.typeError undefinedToStringMsg) ∧
    (∀ e : MissingNode,
      t.resolveHash dec (.hashn dg) key pos ≠ .error (.missingNode e)) ∧
    mkMissingNodeError
      { rootHash := .bytes t.originalRoot, nodeHash := .bytes dg,
        key := .bytes key, pos := .num pos } =
      .error (.typeError undefinedToStringMsg) := by
  have h1 : t.resolveHash dec (.hashn dg) key pos =
      .error (.typeError undefinedToStringMsg) := by
    simp only [Trie.resolveHash]
    rw [hdb]
    show (match db.get dg with
      | none => Except.error (throwMissing
          { rootHash := .bytes t.originalRoot
            nodeHash := .bytes dg
            key := .bytes key
            pos := .num pos })
      | some raw => Except.ok (dec raw)) = _
    rw [habs]
    rfl
  refine ⟨h1, ?_, rfl⟩
  intro e hc
  rw [h1] at hc
  injection hc with h2
  exact Err.noConfusion h2

/-- Witness for C2 at a concrete trie whose store is empty. -/
theorem c2_resolve_missing_witness :
    ((Trie.new ⟨1, fun _ => [0]⟩ (fun _ => []) (some ⟨fun _ => none⟩) 4).db =
      some ⟨fun _ => none⟩) ∧
    ((⟨fun _ => none⟩ : Store).get [5] = none) ∧
    ((Trie.new ⟨1, fun _ => [0]⟩ (fun _ => []) (some ⟨fun _ => none⟩) 4).resolveHash
        (fun _ => Node.nil) (.hashn [5]) [] 0 =
      .error (.typeError undefinedToStringMsg) ∧
    (∀ e : MissingNode,
      (Trie.new ⟨1, fun _ => [0]⟩ (fun _ => []) (some ⟨fun _ => none⟩) 4).resolveHash
          (fun _ => Node.nil) (.hashn [5]) [] 0 ≠ .error (.missingNode e)) ∧
    mkMissingNodeError
      { rootHash := .bytes (Trie.new ⟨1, fun _ => [0]⟩ (fun _ => [])
          (some ⟨fun _ => none⟩) 4).originalRoot,
        nodeHash := .bytes [5], key := .bytes [], pos := .num 0 } =
      .error (.typeError undefinedToStringMsg)) :=
  ⟨rfl, rfl,
    c2_resolve_missing_raises_typeerror
      (Trie.new ⟨1, fun _ => [0]⟩ (fun _ => []) (some ⟨fun _ => none⟩) 4)
      (fun _ => Node.nil) ⟨fun _ => none⟩ [5] [] 0 rfl rfl⟩

/-- C5: open recovers a missing root from the state key 0x73 when a store is
configured, installs a non-empty root that the store knows as originalRoot
with an in-memory Hash root, and on a root the store does not know it fails
— but with the TypeError of the broken MissingNodeError constructor rather
than a MissingNode error citing the root. -/
theorem c5_open_behaviour (t : Trie) (db : Store) (root : List Nat)
    (hdb : t.db = some db) (hne : root ≠ t.emptyRoot)
    (hlen : root.length = t.hash.size) :
    (∀ r, db.get STATE_KEY = some r → t.openM none = t.openM (some r)) ∧
    (db.get STATE_KEY = none → t.openM none = .ok t) ∧
    (db.has root = true → t.openM (some root) =
      .ok { t with originalRoot := root, root := .hashn root }) ∧
    (db.has root = false →
      t.openM (some root) = .error (.typeError undefinedToStringMsg) ∧
      ∀ e : MissingNode, t.openM (some root) ≠ .error (.missingNode e)) := by
  refine ⟨?_, ?_, ?_, ?_⟩
  · intro r hg
    simp only [Trie.openM]
    rw [hdb]
    dsimp only
    rw [hg]
  · intro hg
    simp only [Trie.openM]
    rw [hdb]
    dsimp only
    rw [hg]
  · intro hhas
    simp only [Trie.openM]
    rw [hdb]
    dsimp only
    rw [if_neg hne, if_neg (fun hc => hc hlen), if_pos hhas]
  · intro hhas
    have h1 : t.openM (some root) = .error (.typeError undefinedToStringMsg) := by
      simp only [Trie.openM]
      rw [hdb]
      dsimp only
      rw [if_neg hne, if_neg (fun hc => hc hlen),
        if_neg (by rw [hhas]; exact Bool.false_ne_true)]
      rfl
    refine ⟨h1, ?_⟩
    intro e hc
    rw [h1] at hc
    injection hc with h2
    exact Err.noConfusion h2

/-- Witness for C5 at a concrete trie with an empty store and the root
0x09. -/
theorem c5_open_behaviour_witness :
    ((Trie.new ⟨1, fun _ => [0]⟩ (fun _ => []) (some ⟨fun _ => none⟩) 4).db =
      some ⟨fun _ => none⟩) ∧
    ([9] ≠ (Trie.new ⟨1, fun _ => [0]⟩ (fun _ => [])
      (some ⟨fun _ => none⟩) 4).emptyRoot) ∧
    (([9] : List Nat).length =
      (Trie.new ⟨1, fun _ => [0]⟩ (fun _ => []) (some ⟨fun _ => none⟩) 4).hash.size) ∧
    (((⟨fun _ => none⟩ : Store).has [9] = false) →
      (Trie.new ⟨1, fun _ => [0]⟩ (fun _ => []) (some ⟨fun _ => none⟩) 4).openM
          (some [9]) = .error (.typeError undefinedToStringMsg) ∧
      ∀ e : MissingNode,
        (Trie.new ⟨1, fun _ => [0]⟩ (fun _ => []) (some ⟨fun _ => none⟩) 4).openM
            (some [9]) ≠ .error (.missingNode e)) :=
  ⟨rfl, by decide, rfl,
    (c5_open_behaviour
      (Trie.new ⟨1, fun _ => [0]⟩ (fun _ => []) (some ⟨fun _ => none⟩) 4)
      ⟨fun _ => none⟩ [9] rfl (by decide) rfl).2.2.2⟩

/-- C6: commit hashes the root through the Hasher with the given batch,
appends the write (0x73, digest) to the batch, installs the digest as
originalRoot, swaps in the cached tree, bumps cacheGen by one, and returns
the digest bytes. -/
theorem c6_commit_behaviour (t : Trie) (H : HasherFn) (batch : Batch) :
    ∃ digest cached b2,
      t.hashRootB H batch = (digest, cached, b2) ∧
      t.commitM H batch =
        (digest.hashData,
          { t with originalRoot := digest.hashData, root := cached, cacheGen := t.cacheGen + 1 },
          b2 ++ [([0x73], digest.hashData)]) :=
  ⟨(t.hashRootB H batch).1, (t.hashRootB H batch).2.1, (t.hashRootB H batch).2.2,
    rfl, rfl⟩

/-- C8: on a fresh trie (Null root, open never called) root_hash returns the
empty-root constant hash(encode(Null)) and the Hasher is bypassed: the
result does not depend on it, and the trie is left unchanged. -/
theorem c8_fresh_root_hash (hashF : HashFn) (encode : Node → List Nat)
    (limit : Nat) (H : HasherFn) :
    (Trie.new hashF encode none limit).rootHashM H =
      (hashF.digest (encode .nil), Trie.new hashF encode none limit) ∧
    (Trie.new hashF encode none limit).hashRootN H =
      (.hashn (hashF.digest (encode .nil)), .nil) :=
  ⟨rfl, rfl⟩

/-- C10: open with no root argument and no configured store, and open on the
empty root, both succeed without touching the trie: no NoDatabase and no
MissingNode error is raised and the state is returned unchanged. -/
theorem c10_open_noop (t : Trie) :
    (t.db = none → t.openM none = .ok t) ∧
    t.openM (some t.emptyRoot) = .ok t := by
  constructor
  · intro hdb
    simp only [Trie.openM]
    rw [hdb]
  · simp only [Trie.openM]
    rw [if_pos trivial]

/-- Witness for C10 at a concrete store-less trie. -/
theorem c10_open_noop_witness :
    ((Trie.new ⟨1, fun _ => [0]⟩ (fun _ => []) none 4).openM none =
      .ok (Trie.new ⟨1, fun _ => [0]⟩ (fun _ => []) none 4)) ∧
    ((Trie.new ⟨1, fun _ => [0]⟩ (fun _ => []) none 4).openM
        (some (Trie.new ⟨1, fun _ => [0]⟩ (fun _ => []) none 4).emptyRoot) =
      .ok (Trie.new ⟨1, fun _ => [0]⟩ (fun _ => []) none 4)) :=
  ⟨(c10_open_noop _).1 rfl, (c10_open_noop _).2⟩

/-- C4: insert at key exhaustion over a Value node yields a Value node with
the new data and reports changed exactly when the stored data differs; and
inserting a pair the tree already holds is a no-op: the walk reports
changed = false through every frame and insert leaves this.root the very
same tree. -/
theorem c4_insert_exhaust_and_idempotent (t : Trie) (dec : List Nat → Node)
    (fuel : Nat) (k v : List Nat)
    (hwf : wfB t.root = true)
    (hk : (k.all fun b => decide (b < 256)) = true)
    (hfound : find t.root (toNibbles k) = some v) :
    (∀ (d0 vd : List Nat) (kn : List Nat) (pos : Nat), pos = kn.length →
      t.insertWalk dec fuel (.valuen d0) kn pos (.valuen vd) =
        .ok (!(d0 == vd), .valuen vd)) ∧
    t.insertWalk dec fuel t.root (toNibbles k) 0 (.valuen v) = .ok (false, t.root) ∧
    t.insertM dec fuel k v = .ok t := by
  obtain ⟨d, n', heval, hwf', hfalse, hiff, hfull, hex⟩ :=
    insertWalk_main t dec (sizeOf t.root) t.root le_rfl fuel (toNibbles k) 0 v hwf
      (Nat.zero_le _) (by rw [List.drop_zero]; exact toNibbles_good (bytes_of_all hk))
  have hd : d = false := hiff.mpr (by rw [List.drop_zero]; exact hfound)
  subst hd
  have hn : n' = t.root := hfalse rfl
  subst hn
  refine ⟨fun d0 vd kn pos hlen => insertWalk_exhaust_valuen t dec fuel d0 vd hlen,
    heval, ?_⟩
  simp only [Trie.insertM]
  rw [heval]

/-- Witness for C4 at a concrete one-leaf trie holding 0x01 at 0x02. -/
theorem c4_insert_idempotent_witness :
    (wfB { Trie.new wHash wEncode none 4 with root := wLeaf }.root = true) ∧
    (([1].all fun b => decide (b < 256)) = true) ∧
    (find { Trie.new wHash wEncode none 4 with root := wLeaf }.root
      (toNibbles [1]) = some [2]) ∧
    ({ Trie.new wHash wEncode none 4 with root := wLeaf }.insertM wDec 0 [1] [2] =
      .ok { Trie.new wHash wEncode none 4 with root := wLeaf }) :=
  have hwf : wfB { Trie.new wHash wEncode none 4 with root := wLeaf }.root = true := by
    show wfB (.short [0, 1, 16] (.valuen [2]) ⟨none, 0, true⟩) = true
    rw [wfB]
    decide
  have hfound : find { Trie.new wHash wEncode none 4 with root := wLeaf }.root
      (toNibbles [1]) = some [2] := by
    show find (.short [0, 1, 16] (.valuen [2]) ⟨none, 0, true⟩) [0, 1, 16] = some [2]
    rw [find_short', if_pos (List.prefix_refl _), find_valuen]
  ⟨hwf, by decide, hfound,
    (c4_insert_exhaust_and_idempotent { Trie.new wHash wEncode none 4 with root := wLeaf }
      wDec 0 [1] [2] hwf (by decide) hfound).2.2⟩

/-- C9: no-op mutations through a Hash root still materialize it: when
this.root is a Hash node whose digest resolves through the store to a tree
rn, an insert of a pair the tree already holds and a remove of an absent
key both succeed and reassign this.root to rn, the decoded tree, rather
than keeping the Hash placeholder — while the logical map (the denotation
of rn) is unchanged. -/
theorem c9_hash_root_materialize (t : Trie) (dec : List Nat → Node) (fuel : Nat)
    (dg : List Nat) (k v : List Nat) (rn : Node)
    (hroot : t.root = .hashn dg)
    (hres : t.resolveHash dec (.hashn dg) (toNibbles k) 0 = .ok rn)
    (hwf : wfB rn = true)
    (hk : (k.all fun b => decide (b < 256)) = true) :
    (find rn (toNibbles k) = some v →
      t.insertM dec (fuel + 1) k v = .ok { t with root := rn }) ∧
    (find rn (toNibbles k) = none →
      t.removeM dec (fuel + 1) k = .ok { t with root := rn }) := by
  have hgood : goodNibsB ((toNibbles k).drop 0) = true := by
    rw [List.drop_zero]
    exact toNibbles_good (bytes_of_all hk)
  have hlen0 : 0 < (toNibbles k).length := List.length_pos.mpr (toNibbles_ne_nil k)
  constructor
  · intro hfound
    obtain ⟨d, n', heval, hwf', hfalse, hiff, hfull, hex⟩ :=
      insertWalk_main t dec (sizeOf rn) rn le_rfl fuel (toNibbles k) 0 v hwf
        (Nat.zero_le _) hgood
    have hd : d = false := hiff.mpr (by rw [List.drop_zero]; exact hfound)
    subst hd
    simp only [Trie.insertM]
    rw [hroot, insertWalk_hashn t dec fuel dg (.valuen v) hlen0, hres]
    dsimp only
    rw [heval]
    rfl
  · intro hnone
    obtain ⟨d, n', heval, hwf', hfalse, hiff, hnull, hex⟩ :=
      removeWalk_main t dec (sizeOf rn) rn le_rfl fuel (toNibbles k) 0 hwf
        (Nat.zero_le _) hgood
    have hd : d = false := hiff.mpr (by rw [List.drop_zero]; exact hnone)
    subst hd
    simp only [Trie.removeM]
    rw [hroot, removeWalk_hashn t dec fuel dg (Nat.zero_le _), hres]
    dsimp only
    rw [heval]
    rfl

/-- Witness for C9: a Hash root over digest 0x05 resolving to the stored
leaf; inserting the held pair (0x01, 0x02) and removing the absent key 0x03
both install the decoded leaf as the root. -/
theorem c9_hash_root_materialize_witness :
    ({ Trie.new wHash wEncode (some wStore) 4 with root := .hashn [5] }.root =
      .hashn [5]) ∧
    ({ Trie.new wHash wEncode (some wStore) 4 with root := .hashn [5] }.resolveHash
      wDec (.hashn [5]) (toNibbles [1]) 0 = .ok wLeaf) ∧
    (wfB wLeaf = true) ∧
    (find wLeaf (toNibbles [1]) = some [2] →
      { Trie.new wHash wEncode (some wStore) 4 with root := .hashn [5] }.insertM
        wDec 1 [1] [2] =
      .ok { { Trie.new wHash wEncode (some wStore) 4 with root := .hashn [5] } with
        root := wLeaf }) :=
  have hwf : wfB wLeaf = true := by
    show wfB (.short [0, 1, 16] (.valuen [2]) ⟨none, 0, true⟩) = true
    rw [wfB]
    decide
  ⟨rfl, rfl, hwf,
    (c9_hash_root_materialize
      { Trie.new wHash wEncode (some wStore) 4 with root := .hashn [5] }
      wDec 0 [5] [1] [2] wLeaf rfl rfl hwf (by decide)).1⟩

/-- C3: the FULLNODE case of _remove after a found child update.  If the
slot scan of the 17 updated children finds exactly one non-Null slot at i,
the branch collapses: to Short([16], children[16]) when i = 16; when
i < 16, to Short([i] ++ child.key, child.value) when children[i] resolves
to a Short, and to Short([i], children[i]) otherwise.  If two or more
slots remain non-Null the dirty clone is returned. -/
theorem c3_remove_full_collapse (t : Trie) (dec : List Nat → Node) (fuel : Nat)
    (cs : List Node) (nf : NodeFlags) (kn : List Nat) (pos : Nat) (nn : Node)
    (hpos : pos ≤ kn.length)
    (hrec : t.removeWalk dec fuel (cs.getD (kn.getD pos 17) Node.nil) kn (pos + 1) =
      .ok (true, nn)) :
    (∀ i0, i0 < 17 →
      ((cs.set (kn.getD pos 17) nn).getD i0 Node.nil).isNull = false →
      (∀ j, j < 17 → j ≠ i0 →
        ((cs.set (kn.getD pos 17) nn).getD j Node.nil).isNull = true) →
      (i0 = 16 →
        t.removeWalk dec fuel (.full cs nf) kn pos =
          .ok (true, t.shortNode [16]
            ((cs.set (kn.getD pos 17) nn).getD 16 Node.nil))) ∧
      (i0 ≠ 16 →
        ∀ child, t.resolve dec ((cs.set (kn.getD pos 17) nn).getD i0 Node.nil)
            kn i0 = .ok child →
          (∀ ck cv cf, child = .short ck cv cf →
            t.removeWalk dec fuel (.full cs nf) kn pos =
              .ok (true, t.shortNode (i0 :: ck) cv)) ∧
          (child.isShort = false →
            t.removeWalk dec fuel (.full cs nf) kn pos =
              .ok (true, t.shortNode [i0]
                ((cs.set (kn.getD pos 17) nn).getD i0 Node.nil))))) ∧
    (∀ j1 j2, j1 ≠ j2 → j1 < 17 → j2 < 17 →
      ((cs.set (kn.getD pos 17) nn).getD j1 Node.nil).isNull = false →
      ((cs.set (kn.getD pos 17) nn).getD j2 Node.nil).isNull = false →
      t.removeWalk dec fuel (.full cs nf) kn pos =
        .ok (true, .full (cs.set (kn.getD pos 17) nn) nf.dirtied)) := by
  have heval0 : t.removeWalk dec fuel (.full cs nf) kn pos =
      (if 0 ≤ scanIndex (cs.set (kn.getD pos 17) nn) then
        if scanIndex (cs.set (kn.getD pos 17) nn) ≠ 16 then
          match t.resolve dec
              ((cs.set (kn.getD pos 17) nn).getD
                (scanIndex (cs.set (kn.getD pos 17) nn)).toNat Node.nil) kn
              (scanIndex (cs.set (kn.getD pos 17) nn)).toNat with
          | .error e => .error e
          | .ok child =>
              match child with
              | .short ck cv _ =>
                  .ok (true, t.shortNode
                    ((scanIndex (cs.set (kn.getD pos 17) nn)).toNat :: ck) cv)
              | _ =>
                  .ok (true, t.shortNode
                    [(scanIndex (cs.set (kn.getD pos 17) nn)).toNat]
                    ((cs.set (kn.getD pos 17) nn).getD
                      (scanIndex (cs.set (kn.getD pos 17) nn)).toNat Node.nil))
        else .ok (true, t.shortNode [16]
          ((cs.set (kn.getD pos 17) nn).getD 16 Node.nil))
      else .ok (true, .full (cs.set (kn.getD pos 17) nn) nf.dirtied)) := by
    rw [removeWalk_full t dec fuel cs nf hpos, hrec]
    rfl
  constructor
  · intro i0 h17 hnn hothers
    have hscan : scanIndex (cs.set (kn.getD pos 17) nn) = (i0 : Int) :=
      scanIndex_of_exactlyOne _ i0 h17 hnn hothers
    constructor
    · intro h16
      subst h16
      rw [heval0, hscan, if_pos (by omega), if_neg (by omega)]
    · intro h16 child hchild
      have htn : ((i0 : Int)).toNat = i0 := by omega
      have hc2 : ((i0 : Int)) ≠ (16 : Int) := by
        intro hc
        exact h16 (by omega)
      constructor
      · intro ck cv cf hcs
        rw [heval0, hscan, if_pos (by omega), if_pos hc2, htn, hchild, hcs]
      · intro hns
        rw [heval0, hscan, if_pos (by omega), if_pos hc2, htn, hchild]
        cases child with
        | short a b c => exact Bool.noConfusion hns
        | nil => rfl
        | hashn d2 => rfl
        | valuen d2 => rfl
        | full a b => rfl
  · intro j1 j2 hne h1 h2 hn1 hn2
    have hscan : scanIndex (cs.set (kn.getD pos 17) nn) < 0 :=
      scanIndex_neg_of_two hne h1 h2 hn1 hn2
    rw [heval0, if_neg (by omega)]

/-- Witness for C3 at a concrete Full node: removing the nibble-0 entry
leaves only the value slot, and the branch collapses to Short([16], value
slot). -/
theorem c3_remove_full_collapse_witness :
    ((0 : Nat) ≤ ([0, 16] : List Nat).length) ∧
    ((Trie.new wHash wEncode none 4).removeWalk wDec 0
      (([Node.valuen [7], .nil, .nil, .nil, .nil, .nil, .nil, .nil, .nil, .nil,
        .nil, .nil, .nil, .nil, .nil, .nil, Node.valuen [8]] : List Node).getD
          (([0, 16] : List Nat).getD 0 17) Node.nil) [0, 16] (0 + 1) =
      .ok (true, Node.nil)) ∧
    ((Trie.new wHash wEncode none 4).removeWalk wDec 0
      (.full [Node.valuen [7], .nil, .nil, .nil, .nil, .nil, .nil, .nil, .nil,
        .nil, .nil, .nil, .nil, .nil, .nil, .nil, Node.valuen [8]]
        ⟨none, 0, true⟩) [0, 16] 0 =
      .ok (true, (Trie.new wHash wEncode none 4).shortNode [16]
        ((([Node.valuen [7], .nil, .nil, .nil, .nil, .nil, .nil, .nil, .nil,
          .nil, .nil, .nil, .nil, .nil, .nil, .nil, Node.valuen [8]] :
            List Node).set (([0, 16] : List Nat).getD 0 17) Node.nil).getD 16
          Node.nil))) :=
  have hrec : (Trie.new wHash wEncode none 4).removeWalk wDec 0
      (([Node.valuen [7], .nil, .nil, .nil, .nil, .nil, .nil, .nil, .nil, .nil,
        .nil, .nil, .nil, .nil, .nil, .nil, Node.valuen [8]] : List Node).getD
          (([0, 16] : List Nat).getD 0 17) Node.nil) [0, 16] (0 + 1) =
      .ok (true, Node.nil) :=
    removeWalk_valuen (Trie.new wHash wEncode none 4) wDec 0 [7] (by decide)
  ⟨by decide, hrec,
    ((c3_remove_full_collapse (Trie.new wHash wEncode none 4) wDec 0
      [Node.valuen [7], .nil, .nil, .nil, .nil, .nil, .nil, .nil, .nil, .nil,
        .nil, .nil, .nil, .nil, .nil, .nil, Node.valuen [8]]
      ⟨none, 0, true⟩ [0, 16] 0 Node.nil (by decide) hrec).1 16 (by decide)
      (by decide) (by decide)).1 rfl⟩

/-- C7: a remove walk frame that reports found = false returns the node it
was given unchanged — except at a Hash entry node, where it returns the
store-resolved node denoting the same subtree in place of the
placeholder. -/
theorem c7_remove_notfound_frame (t : Trie) (dec : List Nat → Node) (fuel : Nat)
    (n : Node) (kn : List Nat) (pos : Nat) (n' : Node)
    (h : t.removeWalk dec fuel n kn pos = .ok (false, n')) :
    n' = n ∨ ∃ dg, n = .hashn dg ∧
      t.resolveHash dec (.hashn dg) kn pos = .ok n' := by
  by_cases hpos : pos ≤ kn.length
  case neg =>
    rw [removeWalk_assert t dec fuel n (by omega)] at h
    exact Except.noConfusion h
  case pos =>
  cases n with
  | nil =>
      rw [removeWalk_nil t dec fuel hpos] at h
      left
      injection h with h2
      injection h2 with _ h3
      exact h3.symm
  | valuen d =>
      rw [removeWalk_valuen t dec fuel d hpos] at h
      injection h with h2
      injection h2 with h3 _
      exact Bool.noConfusion h3
  | short nk nv nf =>
      rw [removeWalk_short t dec fuel nk nv nf hpos] at h
      by_cases hml1 : prefixLen kn nk pos < nk.length
      · rw [if_pos hml1] at h
        left
        injection h with h2
        injection h2 with _ h3
        exact h3.symm
      · rw [if_neg hml1] at h
        by_cases hml2 : prefixLen kn nk pos = kn.length - pos
        · rw [if_pos hml2] at h
          injection h with h2
          injection h2 with h3 _
          exact Bool.noConfusion h3
        · rw [if_neg hml2] at h
          cases hr : t.removeWalk dec fuel nv kn (pos + nk.length) with
          | error e =>
              rw [hr] at h
              exact Except.noConfusion h
          | ok p =>
              obtain ⟨d, nn⟩ := p
              rw [hr] at h
              cases d with
              | false =>
                  dsimp only at h
                  left
                  injection h with h2
                  injection h2 with _ h3
                  exact h3.symm
              | true =>
                  cases nn with
                  | short a b c =>
                      dsimp only at h
                      injection h with h2
                      injection h2 with h3 _
                      exact Bool.noConfusion h3
                  | nil =>
                      dsimp only at h
                      injection h with h2
                      injection h2 with h3 _
                      exact Bool.noConfusion h3
                  | hashn d2 =>
                      dsimp only at h
                      injection h with h2
                      injection h2 with h3 _
                      exact Bool.noConfusion h3
                  | valuen d2 =>
                      dsimp only at h
                      injection h with h2
                      injection h2 with h3 _
                      exact Bool.noConfusion h3
                  | full a b =>
                      dsimp only at h
                      injection h with h2
                      injection h2 with h3 _
                      exact Bool.noConfusion h3
  | full cs nf =>
      rw [removeWalk_full t dec fuel cs nf hpos] at h
      cases hr : t.removeWalk dec fuel (cs.getD (kn.getD pos 17) Node.nil) kn
          (pos + 1) with
      | error e =>
          rw [hr] at h
          exact Except.noConfusion h
      | ok p =>
          obtain ⟨d, nn⟩ := p
          rw [hr] at h
          cases d with
          | false =>
              dsimp only at h
              left
              injection h with h2
              injection h2 with _ h3
              exact h3.symm
          | true =>
              dsimp only at h
              by_cases h0 : 0 ≤ scanIndex (cs.set (kn.getD pos 17) nn)
              · rw [if_pos h0] at h
                by_cases h16 : scanIndex (cs.set (kn.getD pos 17) nn) ≠ 16
                · rw [if_pos h16] at h
                  cases hres : t.resolve dec
                      ((cs.set (kn.getD pos 17) nn).getD
                        (scanIndex (cs.set (kn.getD pos 17) nn)).toNat Node.nil) kn
                      (scanIndex (cs.set (kn.getD pos 17) nn)).toNat with
                  | error e =>
                      rw [hres] at h
                      exact Except.noConfusion h
                  | ok child =>
                      rw [hres] at h
                      cases child with
                      | short a b c =>
                          dsimp only at h
                          injection h with h2
                          injection h2 with h3 _
                          exact Bool.noConfusion h3
                      | nil =>
                          dsimp only at h
                          injection h with h2
                          injection h2 with h3 _
                          exact Bool.noConfusion h3
                      | hashn d2 =>
                          dsimp only at h
                          injection h with h2
                          injection h2 with h3 _
                          exact Bool.noConfusion h3
                      | valuen d2 =>
                          dsimp only at h
                          injection h with h2
                          injection h2 with h3 _
                          exact Bool.noConfusion h3
                      | full a b =>
                          dsimp only at h
                          injection h with h2
                          injection h2 with h3 _
                          exact Bool.noConfusion h3
                · rw [if_neg h16] at h
                  injection h with h2
                  injection h2 with h3 _
                  exact Bool.noConfusion h3
              · rw [if_neg h0] at h
                injection h with h2
                injection h2 with h3 _
                exact Bool.noConfusion h3
  | hashn dg =>
      cases fuel with
      | zero =>
          rw [Trie.removeWalk.eq_def] at h
          dsimp only at h
          rw [if_neg (by omega)] at h
          cases hres : t.resolveHash dec (.hashn dg) kn pos with
          | error e =>
              rw [hres] at h
              exact Except.noConfusion h
          | ok rn =>
              rw [hres] at h
              dsimp only at h
              exact Except.noConfusion h
      | succ fuel' =>
          rw [removeWalk_hashn t dec fuel' dg hpos] at h
          cases hres : t.resolveHash dec (.hashn dg) kn pos with
          | error e =>
              rw [hres] at h
              exact Except.noConfusion h
          | ok rn =>
              rw [hres] at h
              dsimp only at h
              cases hr2 : t.removeWalk dec fuel' rn kn pos with
              | error e =>
                  rw [hr2] at h
                  exact Except.noConfusion h
              | ok p =>
                  obtain ⟨d, nn⟩ := p
                  rw [hr2] at h
                  cases d with
                  | true =>
                      dsimp only at h
                      injection h with h2
                      injection h2 with h3 _
                      exact Bool.noConfusion h3
                  | false =>
                      dsimp only at h
                      injection h with h2
                      injection h2 with _ h3
                      refine Or.inr ⟨dg, rfl, ?_⟩
                      rw [← h3]
                      exact hres

/-- Witness for C7: a not-found removal at an empty subtree returns the
subtree unchanged. -/
theorem c7_remove_notfound_witness :
    ((Trie.new wHash wEncode none 4).removeWalk wDec 0 Node.nil [16] 0 =
      .ok (false, Node.nil)) ∧
    (Node.nil = Node.nil ∨ ∃ dg, Node.nil = Node.hashn dg ∧
      (Trie.new wHash wEncode none 4).resolveHash wDec (.hashn dg) [16] 0 =
        .ok Node.nil) :=
  have h : (Trie.new wHash wEncode none 4).removeWalk wDec 0 Node.nil [16] 0 =
      .ok (false, Node.nil) :=
    removeWalk_nil (Trie.new wHash wEncode none 4) wDec 0 (by decide)
  ⟨h, c7_remove_notfound_frame (Trie.new wHash wEncode none 4) wDec 0 Node.nil
    [16] 0 Node.nil h⟩

end Urkel
